import Mathlib

/-!
Verification of the reconciliation engine of `googledrive-sync-verifier`.

The Go sources are shallowly embedded: Go slices become `List`s, the Go
`while` loops become recursions with an explicit termination measure, signed
Go `int` counters become `Int`, and Go strings become `String` (ASCII byte
order and Unicode code-point order agree on the paths that occur here, and
Go's byte-wise string order agrees with code-point order on valid UTF-8).
Heaps are drained through `PopOrNil` into ascending streams, so the
comparison functions take the popped streams as lists.
-/

namespace DriveVerifier

/-- File record produced by either the remote listing or the local walk
(struct `File` in `main.go`). -/
structure File where
  Path : String
  OriginalPath : String
  ContentHash : String
deriving DecidableEq, Repr

/-- Local file that could not be read (struct `FileError` in `main.go`);
the Go `error` value is embedded as its message string. -/
structure FileError where
  Path : String
  Error : String
deriving DecidableEq, Repr

/-- Fuzzy-match record (struct `PossibleMatch` in `manifest_comparison.go`). -/
structure PossibleMatch where
  LocalPath : String
  RemotePath : String
deriving DecidableEq, Repr

/-- Result record of the comparison (struct `ManifestComparison` in
`manifest_comparison.go`). `Matches` and `Misses` are signed Go ints. -/
structure ManifestComparison where
  OnlyRemote : List File
  OnlyLocal : List File
  ContentMismatch : List String
  PossibleMatches : List PossibleMatch
  KnownSyncIssues : List String
  Errored : List FileError
  Matches : Int
  Misses : Int
deriving DecidableEq, Repr

/-- Lexicographic order on character lists: Go's built-in `<` on strings
compares byte-wise, which on valid UTF-8 agrees with the code-point
lexicographic order computed here. -/
def charsLt : List Char → List Char → Bool
  | [], [] => false
  | [], _ :: _ => true
  | _ :: _, [] => false
  | a :: as, b :: bs =>
      if a < b then true
      else if b < a then false
      else charsLt as bs

/-- Go's `<` on strings (`a < b`), byte-wise lexicographic. -/
def stringLt (a b : String) : Bool :=
  charsLt a.data b.data

/-- Translation of `compareFileContents` in `manifest_comparison.go`. The
missing-hash short-circuit is commented out in that source file, so the
function is plain hash equality. -/
def compareFileContents (remote loc : File) : Bool :=
  remote.ContentHash == loc.ContentHash

/-- The earlier iteration of `compareFileContents` (in the superseded
manifest-comparison source, where the missing-hash short-circuit is active):
an empty content hash on either side counts as a match. -/
def compareFileContentsLegacy (remote loc : File) : Bool :=
  if remote.ContentHash = "" || loc.ContentHash = "" then true
  else remote.ContentHash == loc.ContentHash

/-- The merge loop of `compareManifests` in `manifest_comparison.go`: the Go
`for local != nil || remote != nil` loop over the two popped streams, with the
branches in the source's order (`local == nil`, `remote == nil`,
`local.Path > remote.Path`, `local.Path < remote.Path`, equal paths). -/
def compareManifestsLoop : List File → List File → ManifestComparison → ManifestComparison
  | [], [], comparison => comparison
  | remote :: rs, [], comparison =>
      compareManifestsLoop rs []
        { comparison with OnlyRemote := comparison.OnlyRemote ++ [remote],
                          Misses := comparison.Misses + 1 }
  | [], loc :: ls, comparison =>
      compareManifestsLoop [] ls
        { comparison with OnlyLocal := comparison.OnlyLocal ++ [loc],
                          Misses := comparison.Misses + 1 }
  | remote :: rs, loc :: ls, comparison =>
      if stringLt remote.Path loc.Path then
        compareManifestsLoop rs (loc :: ls)
          { comparison with OnlyRemote := comparison.OnlyRemote ++ [remote],
                            Misses := comparison.Misses + 1 }
      else if stringLt loc.Path remote.Path then
        compareManifestsLoop (remote :: rs) ls
          { comparison with OnlyLocal := comparison.OnlyLocal ++ [loc],
                            Misses := comparison.Misses + 1 }
      else
        compareManifestsLoop rs ls
          (if compareFileContents (remote) (loc) then
            { comparison with Matches := comparison.Matches + 1 }
          else
            { comparison with
                ContentMismatch := comparison.ContentMismatch ++ [loc.Path],
                Misses := comparison.Misses + 1 })
termination_by rs ls _ => rs.length + ls.length

/-- `hasKnownSyncIssue` in `manifest_comparison.go`:
`strings.Contains(path, ":")` — the one-character substring ":" occurs in
`path` exactly when the character `':'` occurs among its characters. -/
def hasKnownSyncIssue (path : String) : Bool :=
  path.data.contains ':'

/-- The body of `FindKnownSyncIssues`: the Go loop
`for i := len(mc.OnlyRemote) - 1; i >= 0; i--`, which prepends each
colon-containing path to `KnownSyncIssues` and deletes it from `OnlyRemote`
(`deleteFromSlice` is `List.eraseIdx`). The first argument is `i + 1`. -/
def FindKnownSyncIssuesLoop : Nat → ManifestComparison → ManifestComparison
  | 0, mc => mc
  | i + 1, mc =>
    let mc' :=
      if h : i < mc.OnlyRemote.length then
        let file := mc.OnlyRemote.get ⟨i, h⟩
        if hasKnownSyncIssue file.Path then
          { mc with KnownSyncIssues := file.Path :: mc.KnownSyncIssues,
                    OnlyRemote := mc.OnlyRemote.eraseIdx i }
        else mc
      else mc
    FindKnownSyncIssuesLoop i mc'

/-- `(*ManifestComparison).FindKnownSyncIssues` in `manifest_comparison.go`. -/
def ManifestComparison.FindKnownSyncIssues (mc : ManifestComparison) : ManifestComparison :=
  FindKnownSyncIssuesLoop mc.OnlyRemote.length mc

/-- Go `path/filepath.Ext` scans the path backwards and stops at a path
separator; this helper runs over the reversed character list and returns the
characters before the last dot of the final element (`none` when the final
element has no dot). -/
def extSplit : List Char → Option (List Char)
  | [] => none
  | '/' :: _ => none
  | '.' :: rest => some rest
  | _ :: rest => extSplit rest

/-- `strings.TrimSuffix(path, filepath.Ext(path))` from `isPossibleMatch`. -/
def trimExt (s : String) : String :=
  match extSplit s.data.reverse with
  | some rest => String.mk rest.reverse
  | none => s

/-- Go `possibleDuplicateRegexp.ReplaceAllString(s, "$1")` for the regexp
matching a literal " (1)" followed by a slash or the end of the string: the
slash is kept, the marker is dropped; matches are found left to right and
scanning resumes after each match. -/
def stripDuplicateMarker : List Char → List Char
  | ' ' :: '(' :: '1' :: ')' :: '/' :: rest => '/' :: stripDuplicateMarker rest
  | [' ', '(', '1', ')'] => []
  | c :: rest => c :: stripDuplicateMarker rest
  | [] => []

/-- `strings.ReplaceAll(s, "_", " ")` from `isPossibleMatch`. -/
def underscoreToSpace (s : String) : String :=
  String.mk (s.data.map (fun c => if c = '_' then ' ' else c))

/-- The three path transformations of `isPossibleMatch`, in the source's
order: strip the extension, remove duplicate markers, fold underscores. -/
def normalizeFuzzyPath (p : String) : String :=
  underscoreToSpace (String.mk (stripDuplicateMarker (trimExt p).data))

/-- `isPossibleMatch` in `manifest_comparison.go`. -/
def isPossibleMatch (remoteFile localFile : File) : Bool :=
  if remoteFile.ContentHash ≠ localFile.ContentHash then false
  else normalizeFuzzyPath localFile.Path == normalizeFuzzyPath remoteFile.Path

/-- The inner loop of `FindPossibleMatches`: find the first entry of
`OnlyLocal` that fuzzy-matches the given remote file and delete it
(`deleteFromSlice(mc.OnlyLocal, j)` with `break`). -/
def findFirstMatch (remoteFile : File) : List File → Option (File × List File)
  | [] => none
  | l :: ls =>
    if isPossibleMatch remoteFile l then some (l, ls)
    else
      match findFirstMatch remoteFile ls with
      | some (m, ls') => some (m, l :: ls')
      | none => none

/-- The outer loop of `FindPossibleMatches` over the snapshot of
`mc.OnlyRemote`. A matched remote index is recorded for deferred deletion in
the source; here the returned first component is `OnlyRemote` with those
indices already deleted (descending-index deletion keeps the survivors in
their original relative order). Each match appends one `PossibleMatch`,
deletes the local entry, decrements `Misses` by 2 and increments `Matches`. -/
def FindPossibleMatchesLoop : List File → ManifestComparison → List File × ManifestComparison
  | [], mc => ([], mc)
  | r :: rs, mc =>
    match findFirstMatch r mc.OnlyLocal with
    | some (l, locals') =>
        FindPossibleMatchesLoop rs
          { mc with
              PossibleMatches := mc.PossibleMatches ++ [⟨l.Path, r.Path⟩],
              OnlyLocal := locals',
              Misses := mc.Misses - 2,
              Matches := mc.Matches + 1 }
    | none =>
        let res := FindPossibleMatchesLoop rs mc
        (r :: res.1, res.2)

/-- `(*ManifestComparison).FindPossibleMatches` in `manifest_comparison.go`. -/
def ManifestComparison.FindPossibleMatches (mc : ManifestComparison) : ManifestComparison :=
  let res := FindPossibleMatchesLoop mc.OnlyRemote mc
  { res.2 with OnlyRemote := res.1 }

/-- Proof-level projection of the fuzzy-match pass: the pair of surviving
remote entries and surviving local entries, as computed by the outer loop of
`FindPossibleMatches` (see `FindPossibleMatchesLoop_greedy`). -/
def greedySurvivors : List File → List File → List File × List File
  | [], ls => ([], ls)
  | r :: rs, ls =>
    match findFirstMatch r ls with
    | some (_, ls') => greedySurvivors rs ls'
    | none =>
        let res := greedySurvivors rs ls
        (r :: res.1, res.2)

/-- The fresh accumulator `&ManifestComparison{Errored: errored}` built at
the top of `compareManifests`. -/
def initialComparison (errored : List FileError) : ManifestComparison :=
  { OnlyRemote := [], OnlyLocal := [], ContentMismatch := [],
    PossibleMatches := [], KnownSyncIssues := [], Errored := errored,
    Matches := 0, Misses := 0 }

/-- `compareManifests` in `manifest_comparison.go`: the merge loop, then the
known-issue pass when `synologyMode` is set, then the fuzzy-match pass. The
two manifests are passed as the streams their heaps pop in. -/
def compareManifests (remoteManifest localManifest : List File)
    (errored : List FileError) (synologyMode : Bool) : ManifestComparison :=
  let comparison := initialComparison errored
  let comparison := compareManifestsLoop remoteManifest localManifest comparison
  let comparison := if synologyMode then comparison.FindKnownSyncIssues else comparison
  comparison.FindPossibleMatches

/-- `(*ManifestComparison).IsSuccessful` in `manifest_comparison.go`. -/
def ManifestComparison.IsSuccessful (mc : ManifestComparison) : Bool :=
  mc.Misses ≤ 0

/-- Concrete file used by witnesses: a remote record. -/
def wRemoteFile : File := ⟨"a.txt", "", "h1"⟩

/-- Concrete file used by witnesses: a local record with the same path and a
different hash. -/
def wLocalFile : File := ⟨"a.txt", "", "h2"⟩

/-- Empty comparison accumulator, as built at the top of `compareManifests`. -/
def emptyComparison : ManifestComparison :=
  { OnlyRemote := [], OnlyLocal := [], ContentMismatch := [],
    PossibleMatches := [], KnownSyncIssues := [], Errored := [],
    Matches := 0, Misses := 0 }

/-- Slice access `h[i]` with the Go zero value of `File` out of bounds
(the heap algorithms only index in bounds). -/
def entryAt (h : List File) (i : Nat) : File :=
  h.getD i ⟨"", "", ""⟩

/-- `FileHeap.Less(i, j)`: `h[i].Path < h[j].Path`. -/
def heapLess (h : List File) (i j : Nat) : Bool :=
  stringLt (entryAt h i).Path (entryAt h j).Path

/-- `FileHeap.Swap(i, j)`: exchange two slice entries. -/
def swapAt (h : List File) (i j : Nat) : List File :=
  (h.set i (entryAt h j)).set j (entryAt h i)

/-- `container/heap.up`: sift the entry at `j` toward the root while it is
`Less` than its parent (`i == j` happens exactly at the root, where Go's
`(0-1)/2` truncates to `0`). -/
def upHeap (h : List File) (j : Nat) : List File :=
  if j = 0 then h
  else
    if heapLess h j ((j - 1) / 2) then upHeap (swapAt h ((j - 1) / 2) j) ((j - 1) / 2)
    else h
termination_by j
decreasing_by omega

/-- Child selection of `container/heap.down`: the right child when it is in
bounds and `Less` than the left child, otherwise the left child. -/
def minChildIdx (h : List File) (i n : Nat) : Nat :=
  if 2 * i + 2 < n && heapLess h (2 * i + 2) (2 * i + 1) then 2 * i + 2
  else 2 * i + 1

/-- `container/heap.down` bounded by `n`: repeatedly swap the entry at `i`
with its smaller child while that child is `Less`. -/
def downHeap (h : List File) (i n : Nat) : List File :=
  if _hj : 2 * i + 1 < n then
    if heapLess h (minChildIdx h i n) i then
      downHeap (swapAt h i (minChildIdx h i n)) (minChildIdx h i n) n
    else h
  else h
termination_by n - i
decreasing_by unfold minChildIdx; split <;> omega

/-- `heap.Push(h, x)`: the `FileHeap.Push` append followed by `up` at the
last index. -/
def heapPush (h : List File) (x : File) : List File :=
  upHeap (h ++ [x]) h.length

/-- `heap.Pop(h)` on a nonempty heap: swap the root with the last entry,
sift down within the shortened bound, then `FileHeap.Pop` removes and
returns the last entry. -/
def heapPop (h : List File) : File × List File :=
  let n := h.length - 1
  let h2 := downHeap (swapAt h 0 n) 0 n
  (entryAt h2 n, h2.take n)

/-- `PopOrNil` in `file_heap.go`: pop the smallest record, or return the
`nil` sentinel on an empty heap (never an error). -/
def PopOrNil (h : List File) : Option File × List File :=
  if h.length > 0 then
    ((heapPop h).1, (heapPop h).2)
  else (none, h)

/-- One heap operation, for quantifying over operation sequences. -/
inductive HeapOp where
  | push (f : File)
  | pop
deriving Repr

/-- Apply one heap operation to the backing slice. -/
def applyHeapOp (h : List File) : HeapOp → List File
  | HeapOp.push f => heapPush h f
  | HeapOp.pop => (PopOrNil h).2

/-- Apply a sequence of pushes and pops starting from the given slice. -/
def applyHeapOps (h : List File) (ops : List HeapOp) : List File :=
  ops.foldl applyHeapOp h

/-- The min-heap invariant of the implicit binary tree: no entry is `Less`
than its parent. -/
def IsMinHeap (h : List File) : Prop :=
  ∀ j, 0 < j → j < h.length → heapLess h j ((j - 1) / 2) = false

/-- The min-heap invariant restricted to indices below `n`. -/
def IsMinHeapBelow (h : List File) (n : Nat) : Prop :=
  ∀ j, 0 < j → j < n → heapLess h j ((j - 1) / 2) = false

/-- Sift-up state: every parent edge is in heap order except possibly the
one into `hole`, and the children of `hole` are not below its parent. -/
def UpStateMin (h : List File) (hole : Nat) : Prop :=
  hole < h.length
  ∧ (∀ child, 0 < child → child < h.length → child ≠ hole →
      heapLess h child ((child - 1) / 2) = false)
  ∧ (∀ child, 0 < child → child < h.length → (child - 1) / 2 = hole → hole ≠ 0 →
      heapLess h child ((hole - 1) / 2) = false)

/-- Sift-down state within bound `n`: every parent edge below `n` is in
heap order except those out of `hole`, and the children of `hole` are not
below its parent. -/
def DownStateMin (h : List File) (hole n : Nat) : Prop :=
  hole < n ∧ n ≤ h.length
  ∧ (∀ child, 0 < child → child < n → (child - 1) / 2 ≠ hole →
      heapLess h child ((child - 1) / 2) = false)
  ∧ (∀ child, 0 < child → child < n → (child - 1) / 2 = hole → hole ≠ 0 →
      heapLess h child ((hole - 1) / 2) = false)

/-- Concrete file used by the heap counterexample: path "a.txt". -/
def wFileA : File := ⟨"a.txt", "", ""⟩

/-- Concrete file used by the heap counterexample: path "b.txt". -/
def wFileB : File := ⟨"b.txt", "", ""⟩

/-- Functional update of a Go `map[string]string` entry. -/
def mapInsert (m : String → Option String) (k v : String) : String → Option String :=
  fun x => if x = k then some v else m x

/-- `DriveDirectoryCache` in `drivedirectorycache.go`. The Go maps become
functions to `Option`; `SharedDirectories` only ever stores `true`, so key
presence is modelled as the boolean value. -/
structure DriveDirectoryCache where
  Parents : String → Option String
  Paths : String → Option String
  Names : String → Option String
  SharedDirectories : String → Bool

/-- `NewDriveDirectoryCache` in `drivedirectorycache.go`: empty maps, with
the root id pre-resolved to the empty path. -/
def NewDriveDirectoryCache (rootId : String) : DriveDirectoryCache :=
  ⟨fun _ => none, mapInsert (fun _ => none) rootId "", fun _ => none, fun _ => false⟩

/-- `(*DriveDirectoryCache).AddFolder` in `drivedirectorycache.go`. -/
def AddFolder (d : DriveDirectoryCache) (id name parentId : String) : DriveDirectoryCache :=
  { d with Parents := mapInsert d.Parents id parentId, Names := mapInsert d.Names id name }

/-- The write `d.SharedDirectories[id] = true`. -/
def setShared (d : DriveDirectoryCache) (id : String) : DriveDirectoryCache :=
  { d with SharedDirectories := fun x => if x = id then true else d.SharedDirectories x }

/-- `(*DriveDirectoryCache).PathLookup` in `drivedirectorycache.go`. The Go
method recurses along the `Parents` chain with in-place map writes; here the
state is threaded explicitly and a fuel argument bounds the recursion
(`none` = the Go call would not have terminated on this input). -/
def PathLookup (d : DriveDirectoryCache) (id : String) :
    Nat → Option (Except String String × DriveDirectoryCache)
  | 0 => none
  | fuel + 1 =>
    match d.Paths id with
    | some path => some (Except.ok path, d)
    | none =>
      if d.SharedDirectories id then some (Except.error "Shared directory", d)
      else
        match d.Parents id with
        | none => some (Except.error "Shared directory", setShared d id)
        | some parentId =>
          match PathLookup d parentId fuel with
          | none => none
          | some (Except.error _, d2) => some (Except.error "Shared directory", setShared d2 id)
          | some (Except.ok parentPath, d2) =>
            some (Except.ok (parentPath ++ "/" ++ (d2.Names id).getD ""),
              { d2 with Paths := mapInsert d2.Paths id (parentPath ++ "/" ++ (d2.Names id).getD "") })

/-- A sequence of `AddFolder` calls `(id, name, parentId)`. -/
def applyAddFolders (d : DriveDirectoryCache) (ops : List (String × String × String)) :
    DriveDirectoryCache :=
  ops.foldl (fun d o => AddFolder d o.1 o.2.1 o.2.2) d

/-- Concrete cache used by the C10 witness: a folder "A" whose parent id
"missing" was never registered. -/
def wDirCache : DriveDirectoryCache :=
  AddFolder (NewDriveDirectoryCache "root") "A" "a" "missing"

/-- The cache state after the failed lookup of "A": both "A" and "missing"
are marked shared. -/
def wDirCache2 : DriveDirectoryCache :=
  setShared (setShared wDirCache "missing") "A"

/-- Split a slash-separated path into raw segments (model of the indexing
loops of Go `path`/`path/filepath`). -/
def splitSegs : List Char → List Char → List String
  | [], acc => [String.mk acc.reverse]
  | c :: cs, acc =>
    if c = '/' then String.mk acc.reverse :: splitSegs cs []
    else splitSegs cs (c :: acc)

/-- Join segments with "/" (the buffer writes of Go `path.Clean` and
`filepath.Rel`). -/
def joinSegs : List String → String
  | [] => ""
  | [a] => a
  | a :: b :: rest => a ++ "/" ++ joinSegs (b :: rest)

/-- One step of Go `path.Clean`: push a segment onto the reversed output,
eliding empty and "." segments and resolving ".." against the output. -/
def cleanPush (rooted : Bool) (acc : List String) (seg : String) : List String :=
  if seg = "" ∨ seg = "." then acc
  else if seg = ".." then
    match acc with
    | [] => if rooted then [] else [".."]
    | a :: rest => if a = ".." then ".." :: acc else rest
  else seg :: acc

/-- The cleaned segment list of a path. -/
def goCleanSegs (segs : List String) (rooted : Bool) : List String :=
  (segs.foldl (cleanPush rooted) []).reverse

/-- Go `path.Clean` (equal to `filepath.Clean` on slash-separated systems):
shortest lexical equivalent of the path. -/
def goClean (s : String) : String :=
  if s.data.head? = some '/' then
    "/" ++ joinSegs (goCleanSegs (splitSegs s.data []) true)
  else if goCleanSegs (splitSegs s.data []) false = [] then "."
  else joinSegs (goCleanSegs (splitSegs s.data []) false)

/-- Strip the common leading segments of two cleaned paths (the first-
difference scan of Go `filepath.Rel`). -/
def relSegsLoop : List String → List String → List String × List String
  | b :: bs, t :: ts => if b = t then relSegsLoop bs ts else (b :: bs, t :: ts)
  | bs, ts => (bs, ts)

/-- Go `filepath.Rel` on slash-separated paths without volume names: clean
both paths, require equal rootedness, strip the common prefix, error when
the base still begins with "..", else climb with ".." segments and descend
into the target remainder. -/
def goRel (base targ : String) : Except Unit String :=
  let bc := goClean base
  let tc := goClean targ
  if bc = tc then Except.ok "."
  else
    let brooted := bc.data.head? = some '/'
    let trooted := tc.data.head? = some '/'
    if brooted ≠ trooted then Except.error ()
    else
      let bs := if bc = "." then [] else goCleanSegs (splitSegs bc.data []) brooted
      let ts := if tc = "." then [] else goCleanSegs (splitSegs tc.data []) trooted
      let rem := relSegsLoop bs ts
      if rem.1.head? = some ".." then Except.error ()
      else Except.ok (joinSegs (rem.1.map (fun _ => "..") ++ rem.2))

/-- Go `strings.ToLower` on one character, restricted to ASCII (the only
case folding exercised by the paths considered here). -/
def goToLowerChar (c : Char) : Char :=
  if 'A' ≤ c ∧ c ≤ 'Z' then Char.ofNat (c.toNat + 32) else c

/-- Go `strings.ToLower`, restricted to ASCII folding. -/
def goToLower (s : String) : String :=
  String.mk (s.data.map goToLowerChar)

/-- `relativePath` in `main.go`: `filepath.Rel` against the root, retried
against the lowercased root when the result climbs out of it. -/
def relativePath (root entryPath : String) : Except Unit String :=
  match goRel root entryPath with
  | Except.error e => Except.error e
  | Except.ok relPath =>
    if relPath.data.take 3 = ['.', '.', '/'] then goRel (goToLower root) entryPath
    else Except.ok relPath

/-- The conflict marker of `localConflictMarkerRegexp` in `main.go`. -/
def conflictMarker : List Char := "(slash conflict)".data

/-- Scanner of `localConflictMarkerRegexp.ReplaceAllString(s, "$1")`, the
regexp being `\(slash conflict\)(/|$)`: each occurrence of the marker
followed by a slash or the end of the string is replaced by the captured
slash (or nothing). The fuel argument starts at the string length and
bounds the scan so the recursion is structural. -/
def stripConflictMarkerAux : Nat → List Char → List Char
  | 0, _ => []
  | _, [] => []
  | fuel + 1, c :: cs =>
    if (c :: cs).take 16 = conflictMarker then
      match (c :: cs).drop 16 with
      | [] => []
      | '/' :: rest => '/' :: stripConflictMarkerAux fuel rest
      | _ :: _ => c :: stripConflictMarkerAux fuel cs
    else c :: stripConflictMarkerAux fuel cs

/-- `filterLocalPath` in `main.go`. -/
def filterLocalPath (s : String) : String :=
  String.mk (stripConflictMarkerAux s.data.length s.data)

/-- The per-entry body of `handleLocalFile` in `main.go`, parameterized by
the NFC normalizer (`norm.NFC.String`) and the digest function
(`hashLocalFile`, whose I/O failure path merely skips the record and is not
modelled): relativize the lowercased entry against the lowercased root,
NFC-normalize, strip conflict markers, and record the pre-filter path in
`OriginalPath` exactly when the filter changed the path. -/
def handleLocalFileEntry (nfc : String → String) (contentHash : Bool)
    (hash : String → String) (localRootLowercase entryPath : String) :
    Except String File :=
  match relativePath localRootLowercase (goToLower entryPath) with
  | Except.error _ => Except.error entryPath
  | Except.ok relPath0 =>
    let relPath := nfc relPath0
    let filteredPath := filterLocalPath relPath
    let originalPath := if relPath ≠ filteredPath then relPath else ""
    Except.ok ⟨filteredPath, originalPath, if contentHash then hash entryPath else ""⟩

/-- `googleDriveFolder` in the drive listing source: the parent id and
name recorded by `handleDriveFiles`, plus the lazily memoized `path`
(empty string = not yet built, as in the Go zero value). -/
structure GFolder where
  ParentId : String
  Name : String
  path : String

/-- The folder cache `driveFolders` (`map[string]*googleDriveFolder`). -/
abbrev FolderMap := String → Option GFolder

/-- Functional update of one `driveFolders` entry. -/
def folderInsert (m : FolderMap) (k : String) (v : GFolder) : FolderMap :=
  fun x => if x = k then some v else m x

/-- `filterFileName` in the drive listing source:
`strings.ReplaceAll(name, "/", "_")`. -/
def filterFileName (name : String) : String :=
  String.mk (name.data.map fun c => if c = '/' then '_' else c)

/-- Go `path.Join` on two elements: the non-empty elements joined with a
slash and cleaned; empty when both are empty. -/
def goJoin (a b : String) : String :=
  if a = "" then (if b = "" then "" else goClean b)
  else if b = "" then goClean a
  else goClean (a ++ "/" ++ b)

/-- The fields of `*drive.File` read by the manifest loop of `Files`. -/
structure DriveFile where
  Parents : List String
  Name : String
  Md5Checksum : String

/-- `buildPath` in the drive listing source. The Go method memoizes
`folder.path` in place; here the updated cache is returned alongside the
path, a fuel argument bounds the recursion (`none` = the Go call would not
terminate), and the error carries the missing folder id
(`folderNotFoundError`). `buildStep` is the continuation applied to the
recursive call's outcome: propagate divergence or failure, else join the
memoized name onto the parent path and record it in the cache. -/
def buildStep (folderId : String) (folder : GFolder) :
    Option (Except String (String × FolderMap)) → Option (Except String (String × FolderMap))
  | none => none
  | some (Except.error e) => some (Except.error e)
  | some (Except.ok (parentPath, m2)) =>
    some (Except.ok (goJoin parentPath (filterFileName folder.Name),
      folderInsert m2 folderId
        ⟨folder.ParentId, folder.Name, goJoin parentPath (filterFileName folder.Name)⟩))

/-- `buildPath` in the drive listing source. The Go method memoizes
`folder.path` in place; here the updated cache is returned alongside the
path, a fuel argument bounds the recursion (`none` = the Go call would not
terminate), and the error carries the missing folder id
(`folderNotFoundError`). -/
def buildPath (m : FolderMap) (folderId : String) :
    Nat → Option (Except String (String × FolderMap))
  | 0 => none
  | fuel + 1 =>
    match m folderId with
    | none => some (Except.error folderId)
    | some folder =>
      if folder.path = "" then buildStep folderId folder (buildPath m folder.ParentId fuel)
      else some (Except.ok (folder.path, m))

/-- Stateless resolution of a folder's parent chain: the same recursion as
`buildPath` but ignoring memo writes. Used to state what `buildPath`
computes independently of the cache threading. `chainStep` is the
continuation applied to the parent's outcome. -/
def chainStep (folderName : String) :
    Option (Except String String) → Option (Except String String)
  | none => none
  | some (Except.error e) => some (Except.error e)
  | some (Except.ok parentPath) =>
    some (Except.ok (goJoin parentPath (filterFileName folderName)))

/-- Stateless resolution of a folder's parent chain: the same recursion as
`buildPath` but ignoring memo writes. Used to state what `buildPath`
computes independently of the cache threading. -/
def purePath (m : FolderMap) (folderId : String) : Nat → Option (Except String String)
  | 0 => none
  | fuel + 1 =>
    match m folderId with
    | none => some (Except.error folderId)
    | some folder =>
      if folder.path = "" then chainStep folder.Name (purePath m folder.ParentId fuel)
      else some (Except.ok folder.path)

/-- Parent id selection at the top of the manifest loop of `Files`:
`file.Parents[0]`, or the root id when the file has no parents. -/
def fileParentId (rootId : String) (file : DriveFile) : String :=
  if file.Parents.length > 0 then file.Parents.headD "" else rootId

/-- Continuation of one manifest-loop iteration that emits a record:
propagate divergence or failure of the rest of the loop, else prepend the
record built from the normalized relative path and the file's checksum. -/
def loopStep (nfc : String → String) (relPath md5 : String) :
    Option (Except Unit (List File × FolderMap)) → Option (Except Unit (List File × FolderMap))
  | none => none
  | some (Except.error e) => some (Except.error e)
  | some (Except.ok (files, m3)) =>
    some (Except.ok (⟨goToLower (nfc relPath), "", md5⟩ :: files, m3))

/-- The manifest loop of `Files` in the drive listing source (the loop over
`g.driveFiles`), parameterized by the NFC normalizer: build the parent
path (a `folderNotFoundError` skips the file, any other failure would be
fatal), relativize the joined path against `RootPath`, drop paths escaping
the root, and record the lower-cased normalized path with the file's MD5
checksum. `Except.error ()` is the loop's fatal `return nil, err` on a
`filepath.Rel` failure. -/
def filesLoop (nfc : String → String) (rootId rootPath : String) (fuel : Nat) :
    List DriveFile → FolderMap → Option (Except Unit (List File × FolderMap))
  | [], m => some (Except.ok ([], m))
  | file :: rest, m =>
    match buildPath m (fileParentId rootId file) fuel with
    | none => none
    | some (Except.error _) => filesLoop nfc rootId rootPath fuel rest m
    | some (Except.ok (parentPath, m2)) =>
      match goRel rootPath (goJoin parentPath (filterFileName file.Name)) with
      | Except.error _ => some (Except.error ())
      | Except.ok relPath =>
        if relPath.data.take 3 = ['.', '.', '/'] then
          filesLoop nfc rootId rootPath fuel rest m2
        else loopStep nfc relPath file.Md5Checksum (filesLoop nfc rootId rootPath fuel rest m2)

/-- The stateless per-file outcome of the manifest loop: `none` when the
file is excluded (missing ancestor, or a path escaping the root), the
emitted record otherwise. -/
def includeFile (nfc : String → String) (rootId rootPath : String) (m : FolderMap)
    (fuel : Nat) (file : DriveFile) : Option File :=
  match purePath m (fileParentId rootId file) fuel with
  | some (Except.ok parentPath) =>
    match goRel rootPath (goJoin parentPath (filterFileName file.Name)) with
    | Except.ok relPath =>
      if relPath.data.take 3 = ['.', '.', '/'] then none
      else some ⟨goToLower (nfc relPath), "", file.Md5Checksum⟩
    | Except.error _ => none
  | _ => none

/-- Per-file precondition of the manifest loop: the parent chain either
hits a missing folder id (the file is skipped) or fully resolves within
the fuel and relativizes without a `filepath.Rel` failure. -/
def GoodFile (rootId rootPath : String) (m : FolderMap) (fuel : Nat)
    (file : DriveFile) : Prop :=
  (∃ e, purePath m (fileParentId rootId file) fuel = some (Except.error e))
  ∨ (∃ p r, purePath m (fileParentId rootId file) fuel = some (Except.ok p)
      ∧ goRel rootPath (goJoin p (filterFileName file.Name)) = Except.ok r)

/-- The cache writes `buildPath` may perform: an entry is unchanged, or its
empty memo field is filled with the path its own chain resolves to. -/
def FolderWrites (m m2 : FolderMap) : Prop :=
  ∀ x, m2 x = m x
    ∨ ∃ g p, m x = some g ∧ g.path = "" ∧ m2 x = some ⟨g.ParentId, g.Name, p⟩
        ∧ p ≠ "" ∧ ∀ fuel2 r, purePath m x fuel2 = some r → r = Except.ok p

/-- Concrete folder cache used by the C5 witness: the root "r" with path
"/", a folder "f1" under the root, and a folder "f2" whose parent id
"ghost" is absent from the cache. -/
def wFolderMap : FolderMap :=
  folderInsert (folderInsert (folderInsert (fun _ => none)
    "r" ⟨"", "", "/"⟩) "f1" ⟨"r", "docs", ""⟩) "f2" ⟨"ghost", "shared", ""⟩

/-- C5 witness file under the reachable folder "f1". -/
def wDriveFileA : DriveFile := ⟨["f1"], "a.txt", "h1"⟩

/-- C5 witness file under the unreachable folder "f2". -/
def wDriveFileB : DriveFile := ⟨["f2"], "b.txt", "h2"⟩

/-! ## Theorems -/

/-- The character-list order is irreflexive. -/
theorem charsLt_irrefl (as : List Char) : charsLt as as = false := by
  induction as with
  | nil => rfl
  | cons a as ih => simp [charsLt, lt_irrefl, ih]

/-- The character-list order is asymmetric. -/
theorem charsLt_asymm {as bs : List Char} (h : charsLt as bs = true) :
    charsLt bs as = false := by
  induction as generalizing bs with
  | nil =>
      cases bs with
      | nil => simp [charsLt] at h
      | cons b bs => simp [charsLt]
  | cons a as ih =>
      cases bs with
      | nil => simp [charsLt] at h
      | cons b bs =>
          rcases lt_trichotomy a b with hab | hab | hab
          · simp [charsLt, hab, asymm hab, not_lt_of_gt hab]
          · subst hab
            simp only [charsLt, lt_irrefl, if_false] at h ⊢
            exact ih h
          · simp [charsLt, hab, asymm hab, not_lt_of_gt hab] at h

/-- Two character lists neither of which is smaller are equal. -/
theorem charsLt_eq {as bs : List Char} (h1 : charsLt as bs = false)
    (h2 : charsLt bs as = false) : as = bs := by
  induction as generalizing bs with
  | nil =>
      cases bs with
      | nil => rfl
      | cons b bs => simp [charsLt] at h1
  | cons a as ih =>
      cases bs with
      | nil => simp [charsLt] at h2
      | cons b bs =>
          rcases lt_trichotomy a b with hab | hab | hab
          · simp [charsLt, hab] at h1
          · subst hab
            simp only [charsLt, lt_irrefl, if_false] at h1 h2
            rw [ih h1 h2]
          · simp [charsLt, hab] at h2

/-- `stringLt` is irreflexive. -/
theorem stringLt_irrefl (a : String) : stringLt a a = false :=
  charsLt_irrefl a.data

/-- `stringLt` is asymmetric. -/
theorem stringLt_asymm {a b : String} (h : stringLt a b = true) :
    stringLt b a = false :=
  charsLt_asymm h

/-- Two strings neither of which is smaller are equal. -/
theorem stringLt_eq {a b : String} (h1 : stringLt a b = false)
    (h2 : stringLt b a = false) : a = b := by
  cases a; cases b
  exact congrArg String.mk (charsLt_eq h1 h2)

/-- Every iteration of the merge loop leaves `Misses + Matches` non-decreasing. -/
theorem compareManifestsLoop_counter_le (rs ls : List File) (c : ManifestComparison) :
    c.Misses + c.Matches
      ≤ (compareManifestsLoop rs ls c).Misses + (compareManifestsLoop rs ls c).Matches := by
  induction rs, ls, c using compareManifestsLoop.induct with
  | case1 c => simp [compareManifestsLoop]
  | case2 remote rs c ih =>
      simp only [compareManifestsLoop]
      try simp only at ih
      omega
  | case3 loc ls c ih =>
      simp only [compareManifestsLoop]
      try simp only at ih
      omega
  | case4 remote rs loc ls c h ih =>
      simp only [compareManifestsLoop, if_pos h]
      try simp only at ih
      omega
  | case5 remote rs loc ls c h1 h2 ih =>
      simp only [compareManifestsLoop, if_neg h1, if_pos h2]
      try simp only at ih
      omega
  | case6 remote rs loc ls c h1 h2 ih =>
      simp only [compareManifestsLoop, if_neg h1, if_neg h2]
      by_cases hc : compareFileContents remote loc = true
      · rw [dif_pos hc] at ih
        rw [if_pos hc]
        try simp only at ih
        omega
      · rw [dif_neg hc] at ih
        rw [if_neg hc]
        try simp only at ih
        omega

/-- C3: the merge loop of `compareManifests` is the classic sorted merge-diff.
When both streams are empty the loop stops and the accumulator is returned
unchanged; while either stream is nonempty it keeps running (each step grows
`Misses + Matches`). When one side is exhausted or the front paths differ, the
record with the lexicographically smaller path (or the only remaining record)
is appended to the `Only` list of its own side, `Misses` is incremented by
one, and only that side is advanced. When the front paths are equal, both
sides advance and exactly one of `Matches` or (`ContentMismatch`, `Misses`)
is updated, according to `compareFileContents`. -/
theorem mergeLoop_transition_spec (rs ls : List File) (comparison : ManifestComparison) :
    (rs = [] → ls = [] → compareManifestsLoop rs ls comparison = comparison)
    ∧ (rs ≠ [] ∨ ls ≠ [] →
        comparison.Misses + comparison.Matches
          < (compareManifestsLoop rs ls comparison).Misses
              + (compareManifestsLoop rs ls comparison).Matches)
    ∧ (∀ r rs', rs = r :: rs' → (∀ l ls', ls = l :: ls' → stringLt r.Path l.Path = true) →
        compareManifestsLoop rs ls comparison =
          compareManifestsLoop rs' ls
            { comparison with OnlyRemote := comparison.OnlyRemote ++ [r],
                              Misses := comparison.Misses + 1 })
    ∧ (∀ l ls', ls = l :: ls' → (∀ r rs', rs = r :: rs' → stringLt l.Path r.Path = true) →
        compareManifestsLoop rs ls comparison =
          compareManifestsLoop rs ls'
            { comparison with OnlyLocal := comparison.OnlyLocal ++ [l],
                              Misses := comparison.Misses + 1 })
    ∧ (∀ r rs' l ls', rs = r :: rs' → ls = l :: ls' → r.Path = l.Path →
        compareManifestsLoop rs ls comparison =
          compareManifestsLoop rs' ls'
            (if compareFileContents r l then
              { comparison with Matches := comparison.Matches + 1 }
            else
              { comparison with
                  ContentMismatch := comparison.ContentMismatch ++ [l.Path],
                  Misses := comparison.Misses + 1 })) := by
  refine ⟨?_, ?_, ?_, ?_, ?_⟩
  · rintro rfl rfl
    simp [compareManifestsLoop]
  · intro hne
    rcases rs with _ | ⟨r, rs'⟩ <;> rcases ls with _ | ⟨l, ls'⟩
    · simp at hne
    · simp only [compareManifestsLoop]
      have := compareManifestsLoop_counter_le []
        ls' { comparison with OnlyLocal := comparison.OnlyLocal ++ [l],
                              Misses := comparison.Misses + 1 }
      try simp only at this
      omega
    · simp only [compareManifestsLoop]
      have := compareManifestsLoop_counter_le rs'
        [] { comparison with OnlyRemote := comparison.OnlyRemote ++ [r],
                             Misses := comparison.Misses + 1 }
      try simp only at this
      omega
    · by_cases h1 : stringLt r.Path l.Path = true
      · simp only [compareManifestsLoop, if_pos h1]
        have := compareManifestsLoop_counter_le rs'
          (l :: ls') { comparison with OnlyRemote := comparison.OnlyRemote ++ [r],
                                       Misses := comparison.Misses + 1 }
        try simp only at this
        omega
      · by_cases h2 : stringLt l.Path r.Path = true
        · simp only [compareManifestsLoop, if_neg h1, if_pos h2]
          have := compareManifestsLoop_counter_le (r :: rs')
            ls' { comparison with OnlyLocal := comparison.OnlyLocal ++ [l],
                                  Misses := comparison.Misses + 1 }
          try simp only at this
          omega
        · simp only [compareManifestsLoop, if_neg h1, if_neg h2]
          by_cases hc : compareFileContents r l = true
          · have := compareManifestsLoop_counter_le rs' ls'
              { comparison with Matches := comparison.Matches + 1 }
            simp only [if_pos hc] at this ⊢
            try simp only at this
            omega
          · have := compareManifestsLoop_counter_le rs' ls'
              { comparison with
                  ContentMismatch := comparison.ContentMismatch ++ [l.Path],
                  Misses := comparison.Misses + 1 }
            simp only [if_neg hc] at this ⊢
            try simp only at this
            omega
  · rintro r rs' rfl hmin
    rcases ls with _ | ⟨l, ls'⟩
    · simp [compareManifestsLoop]
    · have hlt : stringLt r.Path l.Path = true := hmin l ls' rfl
      simp only [compareManifestsLoop, if_pos hlt]
  · rintro l ls' rfl hmin
    rcases rs with _ | ⟨r, rs'⟩
    · simp [compareManifestsLoop]
    · have hlt : stringLt l.Path r.Path = true := hmin r rs' rfl
      have hno : ¬ stringLt r.Path l.Path = true := by
        simp [stringLt_asymm hlt]
      simp only [compareManifestsLoop, if_neg hno, if_pos hlt]
  · rintro r rs' l ls' rfl rfl heq
    have h1 : ¬ stringLt r.Path l.Path = true := by
      rw [heq]
      simp [stringLt_irrefl]
    have h2 : ¬ stringLt l.Path r.Path = true := by
      rw [heq]
      simp [stringLt_irrefl]
    simp only [compareManifestsLoop, if_neg h1, if_neg h2]

/-- Witness for `mergeLoop_transition_spec`: the equal-paths transition at a
concrete pair of records with the same path and different hashes. -/
theorem mergeLoop_transition_spec_witness :
    compareManifestsLoop [wRemoteFile] [wLocalFile] emptyComparison =
      compareManifestsLoop [] []
        (if compareFileContents wRemoteFile wLocalFile then
          { emptyComparison with Matches := emptyComparison.Matches + 1 }
        else
          { emptyComparison with
              ContentMismatch := emptyComparison.ContentMismatch ++ [wLocalFile.Path],
              Misses := emptyComparison.Misses + 1 }) :=
  (mergeLoop_transition_spec [wRemoteFile] [wLocalFile] emptyComparison).2.2.2.2
    wRemoteFile [] wLocalFile [] rfl rfl rfl

/-- C1 (code bug): in known-issue mode, the lone only-remote entry
`"a:b.txt"` is moved into `KnownSyncIssues` and removed from `OnlyRemote`,
but `FindKnownSyncIssues` never decrements `Misses`, so the final `Misses`
is 1 (the claim and spec say 0) and the run still counts as a failure. -/
theorem knownIssue_pass_keeps_miss_count :
    compareManifests [⟨"a:b.txt", "", "h1"⟩] [] [] true =
      { OnlyRemote := [], OnlyLocal := [], ContentMismatch := [], PossibleMatches := [],
        KnownSyncIssues := ["a:b.txt"], Errored := [], Matches := 0, Misses := 1 }
    ∧ (compareManifests [⟨"a:b.txt", "", "h1"⟩] [] [] true).IsSuccessful = false := by
  constructor
  · simp only [compareManifests, compareManifestsLoop]
    decide
  · simp only [compareManifests, compareManifestsLoop]
    decide

/-- C2 (code bug): with the missing-hash short-circuit commented out in
`compareFileContents`, a pair with equal paths where the local hash is absent
(as under `--skip-hash`) is recorded as a content mismatch and a miss, not as
a match; the superseded iteration of the function returns `true` there. -/
theorem missing_hash_counts_as_mismatch :
    compareFileContents ⟨"a.txt", "", "abc123"⟩ ⟨"a.txt", "", ""⟩ = false
    ∧ compareFileContentsLegacy ⟨"a.txt", "", "abc123"⟩ ⟨"a.txt", "", ""⟩ = true
    ∧ compareManifests [⟨"a.txt", "", "abc123"⟩] [⟨"a.txt", "", ""⟩] [] false =
      { OnlyRemote := [], OnlyLocal := [], ContentMismatch := ["a.txt"],
        PossibleMatches := [], KnownSyncIssues := [], Errored := [],
        Matches := 0, Misses := 1 } := by
  refine ⟨by decide, by decide, ?_⟩
  simp only [compareManifests, compareManifestsLoop]
  decide

/-- `findFirstMatch` returns the first fuzzy match together with the list
with that entry deleted: the remainder is a sublist one entry shorter, and
the returned entry is a member that satisfies `isPossibleMatch`. -/
theorem findFirstMatch_spec {r l : File} {ls ls' : List File}
    (h : findFirstMatch r ls = some (l, ls')) :
    List.Sublist ls' ls ∧ l ∈ ls ∧ isPossibleMatch r l = true
      ∧ ls'.length + 1 = ls.length := by
  induction ls generalizing ls' with
  | nil => simp [findFirstMatch] at h
  | cons x xs ih =>
      rw [findFirstMatch] at h
      by_cases hx : isPossibleMatch r x = true
      · rw [if_pos hx] at h
        obtain ⟨rfl, rfl⟩ : x = l ∧ xs = ls' := by
          constructor <;> [exact congrArg Prod.fst (Option.some.inj h);
            exact congrArg Prod.snd (Option.some.inj h)]
        exact ⟨List.sublist_cons_self x xs, List.mem_cons_self x xs, hx, rfl⟩
      · rw [if_neg hx] at h
        cases hfm : findFirstMatch r xs with
        | none => rw [hfm] at h; simp at h
        | some p =>
            obtain ⟨m, xs'⟩ := p
            rw [hfm] at h
            obtain ⟨rfl, rfl⟩ : m = l ∧ x :: xs' = ls' := by
              constructor <;> [exact congrArg Prod.fst (Option.some.inj h);
                exact congrArg Prod.snd (Option.some.inj h)]
            obtain ⟨hsub, hmem, hmatch, hlen⟩ := ih hfm
            exact ⟨List.Sublist.cons₂ x hsub, List.mem_cons_of_mem x hmem, hmatch,
              by simp [← hlen]⟩

/-- If `findFirstMatch` fails, no entry of the list fuzzy-matches. -/
theorem findFirstMatch_eq_none {r : File} {ls : List File}
    (h : findFirstMatch r ls = none) : ∀ l ∈ ls, isPossibleMatch r l = false := by
  induction ls with
  | nil => simp
  | cons x xs ih =>
      rw [findFirstMatch] at h
      by_cases hx : isPossibleMatch r x = true
      · rw [if_pos hx] at h
        exact absurd h (by cases hfm : findFirstMatch r xs <;> simp)
      · rw [if_neg hx] at h
        intro l hl
        rcases List.mem_cons.mp hl with rfl | hl'
        · exact Bool.eq_false_iff.mpr hx
        · cases hfm : findFirstMatch r xs with
          | none => exact ih hfm l hl'
          | some p => rw [hfm] at h; cases p; simp at h

/-- If no entry of the list fuzzy-matches, `findFirstMatch` fails. -/
theorem findFirstMatch_eq_none_of (r : File) (ls : List File)
    (h : ∀ l ∈ ls, isPossibleMatch r l = false) : findFirstMatch r ls = none := by
  induction ls with
  | nil => rfl
  | cons x xs ih =>
      rw [findFirstMatch, if_neg (by simp [h x (List.mem_cons_self x xs)]),
        ih (fun l hl => h l (List.mem_cons_of_mem x hl))]

/-- Bookkeeping of the fuzzy-match outer loop: the appended possible-match
entries account exactly for the removals from the two `Only` lists and for
the counter updates, and every appended entry comes from a fuzzy-matching
remote/local pair. -/
theorem FindPossibleMatchesLoop_spec (rs : List File) (mc : ManifestComparison) :
    ∃ t : List PossibleMatch,
      (FindPossibleMatchesLoop rs mc).2.PossibleMatches = mc.PossibleMatches ++ t
      ∧ (FindPossibleMatchesLoop rs mc).1.length + t.length = rs.length
      ∧ List.Sublist (FindPossibleMatchesLoop rs mc).1 rs
      ∧ (FindPossibleMatchesLoop rs mc).2.OnlyLocal.length + t.length = mc.OnlyLocal.length
      ∧ List.Sublist (FindPossibleMatchesLoop rs mc).2.OnlyLocal mc.OnlyLocal
      ∧ (FindPossibleMatchesLoop rs mc).2.Misses = mc.Misses - 2 * t.length
      ∧ (FindPossibleMatchesLoop rs mc).2.Matches = mc.Matches + t.length
      ∧ (∀ pm ∈ t, ∃ r ∈ rs, ∃ l ∈ mc.OnlyLocal,
          isPossibleMatch r l = true ∧ pm = ⟨l.Path, r.Path⟩)
      ∧ (FindPossibleMatchesLoop rs mc).2.OnlyRemote = mc.OnlyRemote
      ∧ (FindPossibleMatchesLoop rs mc).2.ContentMismatch = mc.ContentMismatch
      ∧ (FindPossibleMatchesLoop rs mc).2.KnownSyncIssues = mc.KnownSyncIssues
      ∧ (FindPossibleMatchesLoop rs mc).2.Errored = mc.Errored := by
  induction rs generalizing mc with
  | nil =>
      refine ⟨[], ?_⟩
      simp [FindPossibleMatchesLoop]
  | cons r rs ih =>
      cases hfm : findFirstMatch r mc.OnlyLocal with
      | some p =>
          obtain ⟨l, locals'⟩ := p
          obtain ⟨hsub0, hmem0, hmatch0, hlen0⟩ := findFirstMatch_spec hfm
          simp only [FindPossibleMatchesLoop, hfm]
          obtain ⟨t, h1, h2, h3, h4, h5, h6, h7, h8, h9, h10, h11, h12⟩ :=
            ih { mc with
                  PossibleMatches := mc.PossibleMatches ++ [⟨l.Path, r.Path⟩],
                  OnlyLocal := locals',
                  Misses := mc.Misses - 2,
                  Matches := mc.Matches + 1 }
          refine ⟨⟨l.Path, r.Path⟩ :: t, ?_, ?_, ?_, ?_, ?_, ?_, ?_, ?_, ?_, ?_, ?_, ?_⟩
          · rw [h1]; simp
          · simp only [List.length_cons]
            omega
          · exact List.Sublist.cons r h3
          · try simp only at h4
            simp only [List.length_cons]
            omega
          · exact List.Sublist.trans h5 hsub0
          · rw [h6]
            try simp only
            simp only [List.length_cons]
            push_cast
            omega
          · rw [h7]
            try simp only
            simp only [List.length_cons]
            push_cast
            omega
          · intro pm hpm
            rcases List.mem_cons.mp hpm with rfl | hpm'
            · exact ⟨r, List.mem_cons_self r rs, l, hmem0, hmatch0, rfl⟩
            · obtain ⟨r', hr', l', hl', hm', hpm'⟩ := h8 pm hpm'
              exact ⟨r', List.mem_cons_of_mem r hr', l',
                hsub0.subset hl', hm', hpm'⟩
          · rw [h9]
          · rw [h10]
          · rw [h11]
          · rw [h12]
      | none =>
          simp only [FindPossibleMatchesLoop, hfm]
          obtain ⟨t, h1, h2, h3, h4, h5, h6, h7, h8, h9, h10, h11, h12⟩ := ih mc
          refine ⟨t, h1, ?_, List.Sublist.cons₂ r h3, h4, h5, h6, h7, ?_, h9, h10, h11, h12⟩
          · simp only [List.length_cons]; omega
          · intro pm hpm
            obtain ⟨r', hr', rest⟩ := h8 pm hpm
            exact ⟨r', List.mem_cons_of_mem r hr', rest⟩

/-- C4: each pair reclassified by the fuzzy-match pass contributes exactly
one appended `PossibleMatches` entry, removes one record from `OnlyRemote`
and one from `OnlyLocal` (the survivors are sublists), decreases `Misses` by
exactly 2 and increases `Matches` by exactly 1; every appended entry arises
from a remote/local pair with `isPossibleMatch` (equal hashes and equal
normalized paths). -/
theorem findPossibleMatches_reclassification_spec (mc : ManifestComparison) :
    ∃ t : List PossibleMatch,
      mc.FindPossibleMatches.PossibleMatches = mc.PossibleMatches ++ t
      ∧ mc.FindPossibleMatches.OnlyRemote.length + t.length = mc.OnlyRemote.length
      ∧ List.Sublist mc.FindPossibleMatches.OnlyRemote mc.OnlyRemote
      ∧ mc.FindPossibleMatches.OnlyLocal.length + t.length = mc.OnlyLocal.length
      ∧ List.Sublist mc.FindPossibleMatches.OnlyLocal mc.OnlyLocal
      ∧ mc.FindPossibleMatches.Misses = mc.Misses - 2 * t.length
      ∧ mc.FindPossibleMatches.Matches = mc.Matches + t.length
      ∧ ∀ pm ∈ t, ∃ r ∈ mc.OnlyRemote, ∃ l ∈ mc.OnlyLocal,
          isPossibleMatch r l = true ∧ pm = ⟨l.Path, r.Path⟩ := by
  obtain ⟨t, h1, h2, h3, h4, h5, h6, h7, h8, _⟩ :=
    FindPossibleMatchesLoop_spec mc.OnlyRemote mc
  exact ⟨t, h1, h2, h3, h4, h5, h6, h7, h8⟩

/-- Survivors of the fuzzy-match pass have no fuzzy match left against the
surviving local entries. -/
theorem FindPossibleMatchesLoop_no_match (rs : List File) (mc : ManifestComparison) :
    ∀ r ∈ (FindPossibleMatchesLoop rs mc).1,
      ∀ l ∈ (FindPossibleMatchesLoop rs mc).2.OnlyLocal, isPossibleMatch r l = false := by
  induction rs generalizing mc with
  | nil => simp [FindPossibleMatchesLoop]
  | cons r rs ih =>
      cases hfm : findFirstMatch r mc.OnlyLocal with
      | some p =>
          obtain ⟨l, locals'⟩ := p
          simp only [FindPossibleMatchesLoop, hfm]
          exact ih _
      | none =>
          intro x hx l hl
          simp only [FindPossibleMatchesLoop, hfm] at hx hl
          rcases List.mem_cons.mp hx with rfl | hx'
          · obtain ⟨_, _, _, _, _, hsub, _⟩ := FindPossibleMatchesLoop_spec rs mc
            exact findFirstMatch_eq_none hfm l (hsub.subset hl)
          · exact ih mc x hx' l hl

/-- When no remote/local pair fuzzy-matches, the fuzzy-match pass is the
identity on the whole comparison record. -/
theorem FindPossibleMatches_eq_self (mc : ManifestComparison)
    (h : ∀ r ∈ mc.OnlyRemote, ∀ l ∈ mc.OnlyLocal, isPossibleMatch r l = false) :
    mc.FindPossibleMatches = mc := by
  have key : ∀ rs, (∀ r ∈ rs, ∀ l ∈ mc.OnlyLocal, isPossibleMatch r l = false) →
      FindPossibleMatchesLoop rs mc = (rs, mc) := by
    intro rs
    induction rs with
    | nil => intro _; rfl
    | cons r rs ih =>
        intro hrs
        rw [FindPossibleMatchesLoop,
          findFirstMatch_eq_none_of r mc.OnlyLocal (hrs r (List.mem_cons_self r rs)),
          ih (fun x hx => hrs x (List.mem_cons_of_mem r hx))]
  unfold ManifestComparison.FindPossibleMatches
  rw [key mc.OnlyRemote h]

/-- C7: the fuzzy-match pass is idempotent — running `FindPossibleMatches` a
second time changes nothing: no new `PossibleMatches` entries, no further
removals from `OnlyRemote`/`OnlyLocal`, `Matches` and `Misses` unchanged. -/
theorem findPossibleMatches_idempotent (mc : ManifestComparison) :
    mc.FindPossibleMatches.FindPossibleMatches = mc.FindPossibleMatches := by
  apply FindPossibleMatches_eq_self
  intro r hr l hl
  have key := FindPossibleMatchesLoop_no_match mc.OnlyRemote mc
  simp only [ManifestComparison.FindPossibleMatches] at hr hl
  exact key r hr l hl

/-- Equality test on strings is symmetric as a boolean. -/
theorem stringBeq_comm (a b : String) : (a == b) = (b == a) := by
  by_cases h : a = b
  · rw [h]
  · rw [beq_false_of_ne h, beq_false_of_ne (Ne.symm h)]

/-- `isPossibleMatch` is a symmetric predicate: hash equality and normalized
path equality are both symmetric. -/
theorem isPossibleMatch_comm (a b : File) : isPossibleMatch a b = isPossibleMatch b a := by
  unfold isPossibleMatch
  by_cases h : a.ContentHash = b.ContentHash
  · rw [if_neg (by simp [h]), if_neg (by simp [h])]
    exact stringBeq_comm _ _
  · rw [if_pos h, if_pos (Ne.symm h)]

/-- Draining the fuzzy-match outer loop against an empty local list leaves
every remote entry surviving. -/
theorem greedySurvivors_nil_right (rs : List File) : greedySurvivors rs [] = (rs, []) := by
  induction rs with
  | nil => rfl
  | cons r rs ih => simp [greedySurvivors, findFirstMatch, ih]

/-- A local entry matched by no remote entry just rides along at the head of
the local list: it survives, and the rest behaves as if it were absent. -/
theorem greedySurvivors_inert (y : File) :
    ∀ (xs ys : List File), (∀ x ∈ xs, isPossibleMatch x y = false) →
      greedySurvivors xs (y :: ys) =
        ((greedySurvivors xs ys).1, y :: (greedySurvivors xs ys).2) := by
  intro xs
  induction xs with
  | nil =>
      intro ys h
      simp [greedySurvivors]
  | cons x xs ih =>
      intro ys h
      have hxy : isPossibleMatch x y = false := h x (List.mem_cons_self x xs)
      have htail : ∀ x' ∈ xs, isPossibleMatch x' y = false :=
        fun x' hx' => h x' (List.mem_cons_of_mem x hx')
      cases hfm : findFirstMatch x ys with
      | some p =>
          obtain ⟨m, ys'⟩ := p
          simp only [greedySurvivors, findFirstMatch, hxy, hfm]
          simp only [Bool.false_eq_true, if_false]
          exact ih ys' htail
      | none =>
          simp only [greedySurvivors, findFirstMatch, hxy, hfm]
          simp only [Bool.false_eq_true, if_false]
          rw [ih ys htail]

/-- Transposition lemma for the greedy first-match pass: swapping the roles
of the remote and local lists swaps the two survivor lists exactly.
Induction on the combined length. -/
theorem greedySurvivors_transpose_aux (n : Nat) :
    ∀ rs ls : List File, rs.length + ls.length ≤ n →
      (greedySurvivors ls rs).1 = (greedySurvivors rs ls).2
      ∧ (greedySurvivors ls rs).2 = (greedySurvivors rs ls).1 := by
  induction n with
  | zero =>
      intro rs ls h
      have h1 : rs.length = 0 := by omega
      have h2 : ls.length = 0 := by omega
      obtain rfl : rs = [] := List.eq_nil_of_length_eq_zero h1
      obtain rfl : ls = [] := List.eq_nil_of_length_eq_zero h2
      simp [greedySurvivors]
  | succ n ih =>
      intro rs ls hlen
      cases rs with
      | nil =>
          rw [greedySurvivors_nil_right ls]
          simp [greedySurvivors]
      | cons r rs' =>
          cases ls with
          | nil =>
              rw [greedySurvivors_nil_right (r :: rs')]
              simp [greedySurvivors]
          | cons l ls' =>
              have hLen2 : rs'.length + ls'.length + 2 ≤ n + 1 := by
                simp only [List.length_cons] at hlen
                omega
              by_cases hrl : isPossibleMatch r l = true
              · have hlr : isPossibleMatch l r = true := by
                  rw [isPossibleMatch_comm]; exact hrl
                have e1 : greedySurvivors (r :: rs') (l :: ls') = greedySurvivors rs' ls' := by
                  simp [greedySurvivors, findFirstMatch, hrl]
                have e2 : greedySurvivors (l :: ls') (r :: rs') = greedySurvivors ls' rs' := by
                  simp [greedySurvivors, findFirstMatch, hlr]
                rw [e1, e2]
                exact ih rs' ls' (by omega)
              · have hrl' : isPossibleMatch r l = false := by
                  revert hrl; cases isPossibleMatch r l <;> simp
                have hlr' : isPossibleMatch l r = false := by
                  rw [isPossibleMatch_comm]; exact hrl'
                cases hA : findFirstMatch r ls' with
                | none =>
                    cases hB : findFirstMatch l rs' with
                    | none =>
                        have hBn : ∀ x ∈ rs', isPossibleMatch x l = false := by
                          intro x hx
                          rw [isPossibleMatch_comm]
                          exact findFirstMatch_eq_none hB x hx
                        have hAn : ∀ x ∈ ls', isPossibleMatch x r = false := by
                          intro x hx
                          rw [isPossibleMatch_comm]
                          exact findFirstMatch_eq_none hA x hx
                        have e1 : greedySurvivors (r :: rs') (l :: ls') =
                            (r :: (greedySurvivors rs' (l :: ls')).1,
                              (greedySurvivors rs' (l :: ls')).2) := by
                          simp [greedySurvivors, findFirstMatch, hrl', hA]
                        have e2 : greedySurvivors (l :: ls') (r :: rs') =
                            (l :: (greedySurvivors ls' (r :: rs')).1,
                              (greedySurvivors ls' (r :: rs')).2) := by
                          simp [greedySurvivors, findFirstMatch, hlr', hB]
                        have eInL : greedySurvivors rs' (l :: ls') =
                            ((greedySurvivors rs' ls').1, l :: (greedySurvivors rs' ls').2) :=
                          greedySurvivors_inert l rs' ls' hBn
                        have eInR : greedySurvivors ls' (r :: rs') =
                            ((greedySurvivors ls' rs').1, r :: (greedySurvivors ls' rs').2) :=
                          greedySurvivors_inert r ls' rs' hAn
                        obtain ⟨ih1, ih2⟩ := ih rs' ls' (by omega)
                        constructor
                        · calc (greedySurvivors (l :: ls') (r :: rs')).1
                              = l :: (greedySurvivors ls' (r :: rs')).1 := by rw [e2]
                            _ = l :: (greedySurvivors ls' rs').1 := by rw [eInR]
                            _ = l :: (greedySurvivors rs' ls').2 := by rw [ih1]
                            _ = (greedySurvivors rs' (l :: ls')).2 := by rw [eInL]
                            _ = (greedySurvivors (r :: rs') (l :: ls')).2 := by rw [e1]
                        · calc (greedySurvivors (l :: ls') (r :: rs')).2
                              = r :: (greedySurvivors ls' rs').2 := by rw [e2, eInR]
                            _ = r :: (greedySurvivors rs' ls').1 := by rw [ih2]
                            _ = (greedySurvivors (r :: rs') (l :: ls')).1 := by rw [e1, eInL]
                    | some pB =>
                        obtain ⟨ri, rs''⟩ := pB
                        obtain ⟨hsubB, hmemB, hmatchB, hlenB⟩ := findFirstMatch_spec hB
                        have e1 : greedySurvivors (r :: rs') (l :: ls') =
                            (r :: (greedySurvivors rs' (l :: ls')).1,
                              (greedySurvivors rs' (l :: ls')).2) := by
                          simp [greedySurvivors, findFirstMatch, hrl', hA]
                        have e2 : greedySurvivors (l :: ls') (r :: rs') =
                            greedySurvivors ls' (r :: rs'') := by
                          simp [greedySurvivors, findFirstMatch, hlr', hB]
                        have e3 : greedySurvivors (l :: ls') rs' = greedySurvivors ls' rs'' := by
                          simp [greedySurvivors, hB]
                        have e4 : greedySurvivors (r :: rs'') ls' =
                            (r :: (greedySurvivors rs'' ls').1,
                              (greedySurvivors rs'' ls').2) := by
                          simp [greedySurvivors, hA]
                        obtain ⟨ihA1, ihA2⟩ := ih rs' (l :: ls')
                          (by simp only [List.length_cons]; omega)
                        obtain ⟨ihB1, ihB2⟩ := ih ls' (r :: rs'')
                          (by simp only [List.length_cons]; omega)
                        obtain ⟨ihC1, ihC2⟩ := ih rs'' ls' (by omega)
                        constructor
                        · calc (greedySurvivors (l :: ls') (r :: rs')).1
                              = (greedySurvivors ls' (r :: rs'')).1 := by rw [e2]
                            _ = (greedySurvivors (r :: rs'') ls').2 := by rw [← ihB2]
                            _ = (greedySurvivors rs'' ls').2 := by rw [e4]
                            _ = (greedySurvivors ls' rs'').1 := by rw [← ihC1]
                            _ = (greedySurvivors (l :: ls') rs').1 := by rw [e3]
                            _ = (greedySurvivors rs' (l :: ls')).2 := ihA1
                            _ = (greedySurvivors (r :: rs') (l :: ls')).2 := by rw [e1]
                        · calc (greedySurvivors (l :: ls') (r :: rs')).2
                              = (greedySurvivors ls' (r :: rs'')).2 := by rw [e2]
                            _ = r :: (greedySurvivors rs'' ls').1 := by rw [← ihB1, e4]
                            _ = r :: (greedySurvivors ls' rs'').2 := by rw [← ihC2]
                            _ = r :: (greedySurvivors (l :: ls') rs').2 := by rw [e3]
                            _ = r :: (greedySurvivors rs' (l :: ls')).1 := by rw [ihA2]
                            _ = (greedySurvivors (r :: rs') (l :: ls')).1 := by rw [e1]
                | some pA =>
                    obtain ⟨lj, ls''⟩ := pA
                    obtain ⟨hsubA, hmemA, hmatchA, hlenA⟩ := findFirstMatch_spec hA
                    cases hB : findFirstMatch l rs' with
                    | none =>
                        have e1 : greedySurvivors (r :: rs') (l :: ls') =
                            greedySurvivors rs' (l :: ls'') := by
                          simp [greedySurvivors, findFirstMatch, hrl', hA]
                        have e2 : greedySurvivors (l :: ls') (r :: rs') =
                            (l :: (greedySurvivors ls' (r :: rs')).1,
                              (greedySurvivors ls' (r :: rs')).2) := by
                          simp [greedySurvivors, findFirstMatch, hlr', hB]
                        have e3 : greedySurvivors (l :: ls'') rs' =
                            (l :: (greedySurvivors ls'' rs').1,
                              (greedySurvivors ls'' rs').2) := by
                          simp [greedySurvivors, hB]
                        have e4 : greedySurvivors (r :: rs') ls' = greedySurvivors rs' ls'' := by
                          simp [greedySurvivors, hA]
                        obtain ⟨ihA1, ihA2⟩ := ih rs' (l :: ls'')
                          (by simp only [List.length_cons]; omega)
                        obtain ⟨ihB1, ihB2⟩ := ih ls' (r :: rs')
                          (by simp only [List.length_cons]; omega)
                        obtain ⟨ihC1, ihC2⟩ := ih rs' ls'' (by omega)
                        constructor
                        · calc (greedySurvivors (l :: ls') (r :: rs')).1
                              = l :: (greedySurvivors ls' (r :: rs')).1 := by rw [e2]
                            _ = l :: (greedySurvivors (r :: rs') ls').2 := by rw [← ihB2]
                            _ = l :: (greedySurvivors rs' ls'').2 := by rw [e4]
                            _ = l :: (greedySurvivors ls'' rs').1 := by rw [← ihC1]
                            _ = (greedySurvivors (l :: ls'') rs').1 := by rw [e3]
                            _ = (greedySurvivors rs' (l :: ls'')).2 := ihA1
                            _ = (greedySurvivors (r :: rs') (l :: ls')).2 := by rw [e1]
                        · calc (greedySurvivors (l :: ls') (r :: rs')).2
                              = (greedySurvivors ls' (r :: rs')).2 := by rw [e2]
                            _ = (greedySurvivors (r :: rs') ls').1 := by rw [← ihB1]
                            _ = (greedySurvivors rs' ls'').1 := by rw [e4]
                            _ = (greedySurvivors ls'' rs').2 := by rw [← ihC2]
                            _ = (greedySurvivors (l :: ls'') rs').2 := by rw [e3]
                            _ = (greedySurvivors rs' (l :: ls'')).1 := ihA2
                            _ = (greedySurvivors (r :: rs') (l :: ls')).1 := by rw [e1]
                    | some pB =>
                        obtain ⟨ri, rs''⟩ := pB
                        obtain ⟨hsubB, hmemB, hmatchB, hlenB⟩ := findFirstMatch_spec hB
                        have e1 : greedySurvivors (r :: rs') (l :: ls') =
                            greedySurvivors rs' (l :: ls'') := by
                          simp [greedySurvivors, findFirstMatch, hrl', hA]
                        have e2 : greedySurvivors (l :: ls') (r :: rs') =
                            greedySurvivors ls' (r :: rs'') := by
                          simp [greedySurvivors, findFirstMatch, hlr', hB]
                        have e3 : greedySurvivors (l :: ls'') rs' = greedySurvivors ls'' rs'' := by
                          simp [greedySurvivors, hB]
                        have e4 : greedySurvivors (r :: rs'') ls' = greedySurvivors rs'' ls'' := by
                          simp [greedySurvivors, hA]
                        obtain ⟨ihA1, ihA2⟩ := ih rs' (l :: ls'')
                          (by simp only [List.length_cons]; omega)
                        obtain ⟨ihB1, ihB2⟩ := ih ls' (r :: rs'')
                          (by simp only [List.length_cons]; omega)
                        obtain ⟨ihC1, ihC2⟩ := ih rs'' ls'' (by omega)
                        constructor
                        · calc (greedySurvivors (l :: ls') (r :: rs')).1
                              = (greedySurvivors ls' (r :: rs'')).1 := by rw [e2]
                            _ = (greedySurvivors (r :: rs'') ls').2 := by rw [← ihB2]
                            _ = (greedySurvivors rs'' ls'').2 := by rw [e4]
                            _ = (greedySurvivors ls'' rs'').1 := by rw [← ihC1]
                            _ = (greedySurvivors (l :: ls'') rs').1 := by rw [e3]
                            _ = (greedySurvivors rs' (l :: ls'')).2 := ihA1
                            _ = (greedySurvivors (r :: rs') (l :: ls')).2 := by rw [e1]
                        · calc (greedySurvivors (l :: ls') (r :: rs')).2
                              = (greedySurvivors ls' (r :: rs'')).2 := by rw [e2]
                            _ = (greedySurvivors (r :: rs'') ls').1 := by rw [← ihB1]
                            _ = (greedySurvivors rs'' ls'').1 := by rw [e4]
                            _ = (greedySurvivors ls'' rs'').2 := by rw [← ihC2]
                            _ = (greedySurvivors (l :: ls'') rs').2 := by rw [e3]
                            _ = (greedySurvivors rs' (l :: ls'')).1 := ihA2
                            _ = (greedySurvivors (r :: rs') (l :: ls')).1 := by rw [e1]

/-- Transposition of the greedy fuzzy-match pass, unbounded form. -/
theorem greedySurvivors_transpose (rs ls : List File) :
    (greedySurvivors ls rs).1 = (greedySurvivors rs ls).2
    ∧ (greedySurvivors ls rs).2 = (greedySurvivors rs ls).1 :=
  greedySurvivors_transpose_aux (rs.length + ls.length) rs ls (Nat.le_refl _)

/-- The fuzzy-match loop's surviving remote and local entries are exactly
the two components of `greedySurvivors`. -/
theorem FindPossibleMatchesLoop_greedy (rs : List File) (mc : ManifestComparison) :
    (FindPossibleMatchesLoop rs mc).1 = (greedySurvivors rs mc.OnlyLocal).1
    ∧ (FindPossibleMatchesLoop rs mc).2.OnlyLocal = (greedySurvivors rs mc.OnlyLocal).2 := by
  induction rs generalizing mc with
  | nil => simp [FindPossibleMatchesLoop, greedySurvivors]
  | cons r rs ih =>
      cases hfm : findFirstMatch r mc.OnlyLocal with
      | some p =>
          obtain ⟨l, locals'⟩ := p
          simp only [FindPossibleMatchesLoop, greedySurvivors, hfm]
          exact ih { mc with
            PossibleMatches := mc.PossibleMatches ++ [⟨l.Path, r.Path⟩],
            OnlyLocal := locals',
            Misses := mc.Misses - 2,
            Matches := mc.Matches + 1 }
      | none =>
          simp only [FindPossibleMatchesLoop, greedySurvivors, hfm]
          obtain ⟨ih1, ih2⟩ := ih mc
          exact ⟨by rw [ih1], by rw [ih2]⟩

/-- The content comparison is symmetric (hash equality). -/
theorem compareFileContents_comm (a b : File) :
    compareFileContents a b = compareFileContents b a :=
  stringBeq_comm _ _

/-- Swapping the two popped streams of the merge loop swaps the `OnlyRemote`
and `OnlyLocal` outputs exactly and leaves `ContentMismatch`, `Matches` and
`Misses` unchanged, provided the accumulators are similarly swapped. -/
theorem compareManifestsLoop_swap (n : Nat) :
    ∀ (rs ls : List File) (c d : ManifestComparison),
      rs.length + ls.length ≤ n →
      d.OnlyRemote = c.OnlyLocal → d.OnlyLocal = c.OnlyRemote →
      d.ContentMismatch = c.ContentMismatch → d.Matches = c.Matches →
      d.Misses = c.Misses →
      (compareManifestsLoop ls rs d).OnlyRemote = (compareManifestsLoop rs ls c).OnlyLocal
      ∧ (compareManifestsLoop ls rs d).OnlyLocal = (compareManifestsLoop rs ls c).OnlyRemote
      ∧ (compareManifestsLoop ls rs d).ContentMismatch
          = (compareManifestsLoop rs ls c).ContentMismatch
      ∧ (compareManifestsLoop ls rs d).Matches = (compareManifestsLoop rs ls c).Matches
      ∧ (compareManifestsLoop ls rs d).Misses = (compareManifestsLoop rs ls c).Misses := by
  induction n with
  | zero =>
      intro rs ls c d hlen h1 h2 h3 h4 h5
      obtain rfl : rs = [] := List.eq_nil_of_length_eq_zero (by omega)
      obtain rfl : ls = [] := List.eq_nil_of_length_eq_zero (by omega)
      simp only [compareManifestsLoop]
      exact ⟨h1, h2, h3, h4, h5⟩
  | succ n ih =>
      intro rs ls c d hlen h1 h2 h3 h4 h5
      cases rs with
      | nil =>
          cases ls with
          | nil =>
              simp only [compareManifestsLoop]
              exact ⟨h1, h2, h3, h4, h5⟩
          | cons l ls' =>
              simp only [compareManifestsLoop]
              exact ih [] ls'
                { c with OnlyLocal := c.OnlyLocal ++ [l], Misses := c.Misses + 1 }
                { d with OnlyRemote := d.OnlyRemote ++ [l], Misses := d.Misses + 1 }
                (by simp only [List.length_cons] at hlen; omega)
                (by simp [h1]) (by simp [h2]) (by simp [h3]) (by simp [h4]) (by simp [h5])
      | cons r rs' =>
          cases ls with
          | nil =>
              simp only [compareManifestsLoop]
              exact ih rs' []
                { c with OnlyRemote := c.OnlyRemote ++ [r], Misses := c.Misses + 1 }
                { d with OnlyLocal := d.OnlyLocal ++ [r], Misses := d.Misses + 1 }
                (by simp only [List.length_cons] at hlen; omega)
                (by simp [h1]) (by simp [h2]) (by simp [h3]) (by simp [h4]) (by simp [h5])
          | cons l ls' =>
              have hLen2 : rs'.length + ls'.length + 2 ≤ n + 1 := by
                simp only [List.length_cons] at hlen
                omega
              by_cases hgt : stringLt r.Path l.Path = true
              · have hno : ¬ stringLt l.Path r.Path = true := by
                  simp [stringLt_asymm hgt]
                simp only [compareManifestsLoop, if_pos hgt, if_neg hno]
                exact ih rs' (l :: ls')
                  { c with OnlyRemote := c.OnlyRemote ++ [r], Misses := c.Misses + 1 }
                  { d with OnlyLocal := d.OnlyLocal ++ [r], Misses := d.Misses + 1 }
                  (by simp only [List.length_cons]; omega)
                  (by simp [h1]) (by simp [h2]) (by simp [h3]) (by simp [h4]) (by simp [h5])
              · by_cases hlt : stringLt l.Path r.Path = true
                · have hno2 : ¬ stringLt r.Path l.Path = true := hgt
                  simp only [compareManifestsLoop, if_pos hlt, if_neg hno2]
                  exact ih (r :: rs') ls'
                    { c with OnlyLocal := c.OnlyLocal ++ [l], Misses := c.Misses + 1 }
                    { d with OnlyRemote := d.OnlyRemote ++ [l], Misses := d.Misses + 1 }
                    (by simp only [List.length_cons]; omega)
                    (by simp [h1]) (by simp [h2]) (by simp [h3]) (by simp [h4]) (by simp [h5])
                · have heq : r.Path = l.Path := stringLt_eq
                    (Bool.eq_false_iff.mpr hgt) (Bool.eq_false_iff.mpr hlt)
                  simp only [compareManifestsLoop, if_neg hgt, if_neg hlt]
                  by_cases hc : compareFileContents r l = true
                  · have hc' : compareFileContents l r = true := by
                      rw [compareFileContents_comm]; exact hc
                    rw [if_pos hc, if_pos hc']
                    exact ih rs' ls'
                      { c with Matches := c.Matches + 1 }
                      { d with Matches := d.Matches + 1 }
                      (by omega)
                      (by simp [h1]) (by simp [h2]) (by simp [h3]) (by simp [h4]) (by simp [h5])
                  · have hc' : ¬ compareFileContents l r = true := by
                      rw [compareFileContents_comm]; exact hc
                    rw [if_neg hc, if_neg hc']
                    exact ih rs' ls'
                      { c with ContentMismatch := c.ContentMismatch ++ [l.Path],
                               Misses := c.Misses + 1 }
                      { d with ContentMismatch := d.ContentMismatch ++ [r.Path],
                               Misses := d.Misses + 1 }
                      (by omega)
                      (by simp [h1]) (by simp [h2]) (by simp [h3, heq]) (by simp [h4])
                      (by simp [h5])

/-- C6 counterexample: with known-issue mode on, swapping the remote and
local arguments does not swap `OnlyRemote` and `OnlyLocal`: the known-issue
pass filters only the remote side, so a colon path that is only-remote
disappears from `OnlyRemote`, while the same path only-local stays in
`OnlyLocal` after the swap. -/
theorem compareManifests_swap_fails_knownIssueMode :
    ¬ ((compareManifests [] [⟨"a:b", "", "h"⟩] [] true).OnlyLocal
        = (compareManifests [⟨"a:b", "", "h"⟩] [] [] true).OnlyRemote) := by
  simp only [compareManifests, compareManifestsLoop]
  decide

/-- Field selectors of the fuzzy-match pass in terms of its loop. -/
theorem FindPossibleMatches_fields (mc : ManifestComparison) :
    mc.FindPossibleMatches.OnlyRemote = (FindPossibleMatchesLoop mc.OnlyRemote mc).1
    ∧ mc.FindPossibleMatches.OnlyLocal = (FindPossibleMatchesLoop mc.OnlyRemote mc).2.OnlyLocal
    ∧ mc.FindPossibleMatches.ContentMismatch
        = (FindPossibleMatchesLoop mc.OnlyRemote mc).2.ContentMismatch
    ∧ mc.FindPossibleMatches.Matches = (FindPossibleMatchesLoop mc.OnlyRemote mc).2.Matches :=
  ⟨rfl, rfl, rfl, rfl⟩

/-- C6 (amended to knownIssueMode = false): swapping the remote and local
arguments of the comparison swaps `OnlyRemote` and `OnlyLocal` exactly and
leaves `ContentMismatch` and `Matches` unchanged. The merge loop is
symmetric under the swap, and the greedy fuzzy-match pass transposes. -/
theorem compareManifests_swap_symmetry (A B : List File) (e : List FileError) :
    (compareManifests B A e false).OnlyRemote = (compareManifests A B e false).OnlyLocal
    ∧ (compareManifests B A e false).OnlyLocal = (compareManifests A B e false).OnlyRemote
    ∧ (compareManifests B A e false).ContentMismatch
        = (compareManifests A B e false).ContentMismatch
    ∧ (compareManifests B A e false).Matches = (compareManifests A B e false).Matches := by
  have hA : compareManifests A B e false
      = (compareManifestsLoop A B (initialComparison e)).FindPossibleMatches := rfl
  have hB : compareManifests B A e false
      = (compareManifestsLoop B A (initialComparison e)).FindPossibleMatches := rfl
  rw [hA, hB]
  obtain ⟨m1, m2, m3, m4, m5⟩ :=
    compareManifestsLoop_swap (A.length + B.length) A B
      (initialComparison e) (initialComparison e) (Nat.le_refl _) rfl rfl rfl rfl rfl
  obtain ⟨fB1, fB2, fB3, fB4⟩ :=
    FindPossibleMatches_fields (compareManifestsLoop B A (initialComparison e))
  obtain ⟨fA1, fA2, fA3, fA4⟩ :=
    FindPossibleMatches_fields (compareManifestsLoop A B (initialComparison e))
  obtain ⟨gB1, gB2⟩ :=
    FindPossibleMatchesLoop_greedy (compareManifestsLoop B A (initialComparison e)).OnlyRemote
      (compareManifestsLoop B A (initialComparison e))
  obtain ⟨gA1, gA2⟩ :=
    FindPossibleMatchesLoop_greedy (compareManifestsLoop A B (initialComparison e)).OnlyRemote
      (compareManifestsLoop A B (initialComparison e))
  obtain ⟨t1, t2⟩ := greedySurvivors_transpose
    (compareManifestsLoop A B (initialComparison e)).OnlyRemote
    (compareManifestsLoop A B (initialComparison e)).OnlyLocal
  have hOR : (compareManifestsLoop B A (initialComparison e)).FindPossibleMatches.OnlyRemote
      = (compareManifestsLoop A B (initialComparison e)).FindPossibleMatches.OnlyLocal := by
    rw [fB1, fA2, gB1, gA2, m1, m2]
    exact t1
  have hOL : (compareManifestsLoop B A (initialComparison e)).FindPossibleMatches.OnlyLocal
      = (compareManifestsLoop A B (initialComparison e)).FindPossibleMatches.OnlyRemote := by
    rw [fB2, fA1, gB2, gA1, m1, m2]
    exact t2
  refine ⟨hOR, hOL, ?_, ?_⟩
  · obtain ⟨_, _, _, _, _, _, _, _, _, _, sB, _⟩ :=
      FindPossibleMatchesLoop_spec (compareManifestsLoop B A (initialComparison e)).OnlyRemote
        (compareManifestsLoop B A (initialComparison e))
    obtain ⟨_, _, _, _, _, _, _, _, _, _, sA, _⟩ :=
      FindPossibleMatchesLoop_spec (compareManifestsLoop A B (initialComparison e)).OnlyRemote
        (compareManifestsLoop A B (initialComparison e))
    rw [fB3, fA3, sB, sA, m3]
  · obtain ⟨tB, _, lB1, _, lB2, _, _, mB, _⟩ :=
      FindPossibleMatchesLoop_spec (compareManifestsLoop B A (initialComparison e)).OnlyRemote
        (compareManifestsLoop B A (initialComparison e))
    obtain ⟨tA, _, lA1, _, lA2, _, _, mA, _⟩ :=
      FindPossibleMatchesLoop_spec (compareManifestsLoop A B (initialComparison e)).OnlyRemote
        (compareManifestsLoop A B (initialComparison e))
    rw [fB4, fA4, mB, mA, m4]
    have hlenEq : (FindPossibleMatchesLoop
          (compareManifestsLoop B A (initialComparison e)).OnlyRemote
          (compareManifestsLoop B A (initialComparison e))).1.length
        = (FindPossibleMatchesLoop
          (compareManifestsLoop A B (initialComparison e)).OnlyRemote
          (compareManifestsLoop A B (initialComparison e))).2.OnlyLocal.length := by
    -- survivors of the swapped run equal the surviving locals of the direct run
      rw [gB1, gA2, m1, m2]
      rw [t1]
    have hlen2 : (compareManifestsLoop B A (initialComparison e)).OnlyRemote.length
        = (compareManifestsLoop A B (initialComparison e)).OnlyLocal.length := by
      rw [m1]
    omega

/-- The character-list order is transitive. -/
theorem charsLt_trans : ∀ {as bs cs : List Char},
    charsLt as bs = true → charsLt bs cs = true → charsLt as cs = true := by
  intro as
  induction as with
  | nil =>
      intro bs cs h1 h2
      cases bs with
      | nil => simp [charsLt] at h1
      | cons b bs =>
          cases cs with
          | nil => simp [charsLt] at h2
          | cons c cs => simp [charsLt]
  | cons a as ih =>
      intro bs cs h1 h2
      cases bs with
      | nil => simp [charsLt] at h1
      | cons b bs =>
          cases cs with
          | nil => simp [charsLt] at h2
          | cons c cs =>
              rcases lt_trichotomy a b with hab | hab | hab
              · rcases lt_trichotomy b c with hbc | hbc | hbc
                · simp [charsLt, lt_trans hab hbc]
                · subst hbc
                  simp [charsLt, hab]
                · simp [charsLt, asymm hbc, hbc] at h2
              · subst hab
                simp only [charsLt, lt_irrefl, if_false] at h1
                rcases lt_trichotomy a c with hac | hac | hac
                · simp [charsLt, hac]
                · subst hac
                  simp only [charsLt, lt_irrefl, if_false] at h2 ⊢
                  exact ih h1 h2
                · simp [charsLt, asymm hac, hac] at h2
              · simp [charsLt, asymm hab, hab] at h1

/-- The string order is transitive. -/
theorem stringLt_trans {x y z : String} (h1 : stringLt x y = true)
    (h2 : stringLt y z = true) : stringLt x z = true :=
  charsLt_trans h1 h2

/-- Not-less-than is transitive (the `≤` direction of the string order). -/
theorem stringLt_false_trans {x y z : String} (h1 : stringLt x y = false)
    (h2 : stringLt y z = false) : stringLt x z = false := by
  cases hxz : stringLt x z with
  | false => rfl
  | true =>
      exfalso
      cases hzy : stringLt z y with
      | true =>
          rw [stringLt_trans hxz hzy] at h1
          exact Bool.noConfusion h1
      | false =>
          have hyz : y = z := stringLt_eq h2 hzy
          rw [← hyz] at hxz
          rw [hxz] at h1
          exact Bool.noConfusion h1

/-- From `¬ a < b` and `c < b` conclude `¬ a < c`. -/
theorem stringLt_false_of_false_of_true {a b c : String} (h1 : stringLt a b = false)
    (h2 : stringLt c b = true) : stringLt a c = false := by
  cases hac : stringLt a c with
  | false => rfl
  | true =>
      rw [stringLt_trans hac h2] at h1
      exact Bool.noConfusion h1

/-- Swapping preserves the slice length. -/
theorem length_swapAt (h : List File) (i j : Nat) : (swapAt h i j).length = h.length := by
  simp [swapAt]

/-- Entry view of a swap: position `j` holds the old entry `i`, position `i`
holds the old entry `j`, all others are unchanged. -/
theorem entryAt_swapAt (h : List File) (i j k : Nat) (hi : i < h.length)
    (hj : j < h.length) :
    entryAt (swapAt h i j) k =
      if k = j then entryAt h i else if k = i then entryAt h j else entryAt h k := by
  by_cases hkj : k = j
  · subst hkj
    simp only [entryAt, swapAt, List.getD_eq_getElem?_getD, List.getElem?_set,
      List.length_set, if_pos rfl]
    simp [hj]
  · by_cases hki : k = i
    · subst hki
      simp only [entryAt, swapAt, List.getD_eq_getElem?_getD, List.getElem?_set,
        List.length_set, if_neg hkj, if_neg (fun hh : j = k => hkj hh.symm)]
      simp [hi]
    · simp only [entryAt, swapAt, List.getD_eq_getElem?_getD, List.getElem?_set,
        List.length_set, if_neg hkj, if_neg hki, if_neg (fun hh : j = k => hkj hh.symm),
        if_neg (fun hh : i = k => hki hh.symm)]

/-- An in-bounds entry is a member of the slice. -/
theorem entryAt_mem (h : List File) (i : Nat) (hi : i < h.length) : entryAt h i ∈ h := by
  unfold entryAt
  rw [List.getD_eq_getElem?_getD, List.getElem?_eq_getElem hi]
  exact List.getElem_mem hi

/-- Swapping introduces no new members. -/
theorem mem_swapAt {a : File} {h : List File} {i j : Nat} (hi : i < h.length)
    (hj : j < h.length) (ha : a ∈ swapAt h i j) : a ∈ h := by
  rcases List.mem_or_eq_of_mem_set ha with ha' | rfl
  · rcases List.mem_or_eq_of_mem_set ha' with ha'' | rfl
    · exact ha''
    · exact entryAt_mem h j hj
  · exact entryAt_mem h i hi

/-- Sift-up preserves the slice length. -/
theorem length_upHeap : ∀ (h : List File) (j : Nat), (upHeap h j).length = h.length := by
  intro h j
  induction h, j using upHeap.induct with
  | case1 h => simp [upHeap]
  | case2 h j hne hlt ih =>
      rw [upHeap, if_neg hne, if_pos hlt, ih, length_swapAt]
  | case3 h j hne hlt =>
      rw [upHeap, if_neg hne, if_neg hlt]

/-- Sift-up introduces no new members (for an in-bounds start). -/
theorem mem_upHeap {a : File} : ∀ (h : List File) (j : Nat), j < h.length →
    a ∈ upHeap h j → a ∈ h := by
  intro h j
  induction h, j using upHeap.induct with
  | case1 h =>
      intro _ ha
      rw [upHeap, if_pos rfl] at ha
      exact ha
  | case2 h j hne hlt ih =>
      intro hj ha
      rw [upHeap, if_neg hne, if_pos hlt] at ha
      have hp : (j - 1) / 2 < h.length := by omega
      exact mem_swapAt hp hj (ih (by rw [length_swapAt]; omega) ha)
  | case3 h j hne hlt =>
      intro _ ha
      rw [upHeap, if_neg hne, if_neg hlt] at ha
      exact ha

/-- Bounds for the selected child. -/
theorem minChildIdx_bounds (h : List File) (i n : Nat) (_hj1 : 2 * i + 1 < n) :
    2 * i + 1 ≤ minChildIdx h i n ∧ minChildIdx h i n < n ∧ i < minChildIdx h i n
      ∧ minChildIdx h i n ≤ 2 * i + 2 := by
  unfold minChildIdx
  split
  · next hc =>
      have := (Bool.and_eq_true _ _).mp hc
      simp only [decide_eq_true_eq] at this
      omega
  · omega

/-- The selected child is not `Less` than any in-bounds child of `i`. -/
theorem minChildIdx_min (h : List File) (i n : Nat) (_hj1 : 2 * i + 1 < n) :
    ∀ c, 0 < c → c < n → (c - 1) / 2 = i → heapLess h c (minChildIdx h i n) = false := by
  intro c hc0 hcn hcp
  have hcand : c = 2 * i + 1 ∨ c = 2 * i + 2 := by omega
  unfold minChildIdx
  split
  · next hcond =>
      have hcond' := (Bool.and_eq_true _ _).mp hcond
      rcases hcand with rfl | rfl
      · exact stringLt_asymm hcond'.2
      · exact stringLt_irrefl _
  · next hcond =>
      rcases hcand with rfl | rfl
      · exact stringLt_irrefl _
      · have : ¬ (2 * i + 2 < n ∧ heapLess h (2 * i + 2) (2 * i + 1) = true) := by
          intro hand
          exact hcond (by simp [hand.1, hand.2])
        cases hless : heapLess h (2 * i + 2) (2 * i + 1) with
        | false => rfl
        | true => exact absurd ⟨hcn, hless⟩ this

/-- Sift-down preserves the slice length. -/
theorem length_downHeap : ∀ (h : List File) (i n : Nat),
    (downHeap h i n).length = h.length := by
  intro h i n
  induction h, i, n using downHeap.induct with
  | case1 h i n hj hlt ih =>
      rw [downHeap, dif_pos hj, if_pos hlt, ih, length_swapAt]
  | case2 h i n hj hlt =>
      rw [downHeap, dif_pos hj, if_neg hlt]
  | case3 h i n hj =>
      rw [downHeap, dif_neg hj]

/-- Sift-down introduces no new members when the bound is within the slice. -/
theorem mem_downHeap {a : File} : ∀ (h : List File) (i n : Nat), n ≤ h.length →
    a ∈ downHeap h i n → a ∈ h := by
  intro h i n
  induction h, i, n using downHeap.induct with
  | case1 h i n hj hlt ih =>
      intro hn ha
      rw [downHeap, dif_pos hj, if_pos hlt] at ha
      obtain ⟨hb1, hb2, hb3⟩ := minChildIdx_bounds h i n hj
      exact mem_swapAt (by omega) (by omega) (ih (by rw [length_swapAt]; omega) ha)
  | case2 h i n hj hlt =>
      intro _ ha
      rw [downHeap, dif_pos hj, if_neg hlt] at ha
      exact ha
  | case3 h i n hj =>
      intro _ ha
      rw [downHeap, dif_neg hj] at ha
      exact ha

/-- Sift-down never touches entries at or beyond the bound. -/
theorem entryAt_downHeap_ge : ∀ (h : List File) (i n k : Nat), n ≤ h.length → n ≤ k →
    entryAt (downHeap h i n) k = entryAt h k := by
  intro h i n
  induction h, i, n using downHeap.induct with
  | case1 h i n hj hlt ih =>
      intro k hn hk
      rw [downHeap, dif_pos hj, if_pos hlt]
      obtain ⟨hb1, hb2, hb3⟩ := minChildIdx_bounds h i n hj
      rw [ih k (by rw [length_swapAt]; omega) hk]
      rw [entryAt_swapAt h i (minChildIdx h i n) k (by omega) (by omega)]
      rw [if_neg (by omega), if_neg (by omega)]
  | case2 h i n hj hlt =>
      intro k _ _
      rw [downHeap, dif_pos hj, if_neg hlt]
  | case3 h i n hj =>
      intro k _ _
      rw [downHeap, dif_neg hj]

/-- Entries below the bound survive a `take`. -/
theorem entryAt_take (h : List File) (n k : Nat) (hk : k < n) :
    entryAt (h.take n) k = entryAt h k := by
  unfold entryAt
  rw [List.getD_eq_getElem?_getD, List.getD_eq_getElem?_getD, List.getElem?_take,
    if_pos hk]

/-- Entries below the length of the original list survive an append. -/
theorem entryAt_append_lt (h : List File) (x : File) (k : Nat) (hk : k < h.length) :
    entryAt (h ++ [x]) k = entryAt h k := by
  unfold entryAt
  rw [List.getD_eq_getElem?_getD, List.getD_eq_getElem?_getD,
    List.getElem?_append, if_pos hk]

/-- One sift-up swap step preserves the sift-up state, moving the hole to
the parent. -/
theorem UpStateMin_swap (h : List File) (hole : Nat) (hne : hole ≠ 0)
    (st : UpStateMin h hole)
    (hlt : heapLess h hole ((hole - 1) / 2) = true) :
    UpStateMin (swapAt h ((hole - 1) / 2) hole) ((hole - 1) / 2) := by
  obtain ⟨hbound, hheap, hlower⟩ := st
  have hpb : (hole - 1) / 2 < h.length := by omega
  have hplt : (hole - 1) / 2 < hole := by omega
  have hsw : ∀ k, entryAt (swapAt h ((hole - 1) / 2) hole) k =
      if k = hole then entryAt h ((hole - 1) / 2)
      else if k = (hole - 1) / 2 then entryAt h hole
      else entryAt h k := fun k => entryAt_swapAt h ((hole - 1) / 2) hole k hpb hbound
  refine ⟨by rw [length_swapAt]; omega, ?_, ?_⟩
  · intro child hc0 hclen hcne
    rw [length_swapAt] at hclen
    simp only [heapLess, hsw child, hsw ((child - 1) / 2)]
    by_cases hch : child = hole
    · subst hch
      rw [if_pos rfl, if_neg (by omega : ¬ (child - 1) / 2 = child), if_pos rfl]
      exact stringLt_asymm hlt
    · rw [if_neg hch, if_neg hcne]
      by_cases hp1 : (child - 1) / 2 = (hole - 1) / 2
      · rw [if_neg (by omega : ¬ (child - 1) / 2 = hole), if_pos hp1]
        have hold := hheap child hc0 hclen hch
        rw [hp1] at hold
        exact stringLt_false_of_false_of_true hold hlt
      · by_cases hp2 : (child - 1) / 2 = hole
        · rw [if_pos hp2]
          exact hlower child hc0 hclen hp2 hne
        · rw [if_neg hp2, if_neg hp1]
          exact hheap child hc0 hclen hch
  · intro child hc0 hclen hcp hpne
    rw [length_swapAt] at hclen
    simp only [heapLess, hsw child, hsw (((hole - 1) / 2 - 1) / 2)]
    rw [if_neg (by omega : ¬ ((hole - 1) / 2 - 1) / 2 = hole),
      if_neg (by omega : ¬ ((hole - 1) / 2 - 1) / 2 = (hole - 1) / 2)]
    by_cases hch : child = hole
    · subst hch
      rw [if_pos rfl]
      exact hheap ((child - 1) / 2) (by omega) hpb (by omega)
    · rw [if_neg hch, if_neg (by omega : ¬ child = (hole - 1) / 2)]
      have h1 := hheap child hc0 hclen hch
      rw [hcp] at h1
      have h2 := hheap ((hole - 1) / 2) (by omega) hpb (by omega)
      exact stringLt_false_trans h1 h2

/-- Sift-up from a sift-up state restores the full heap invariant. -/
theorem upHeap_isMinHeap : ∀ (h : List File) (j : Nat), UpStateMin h j →
    IsMinHeap (upHeap h j) := by
  intro h j
  induction h, j using upHeap.induct with
  | case1 h =>
      intro st
      rw [upHeap, if_pos rfl]
      intro k hk0 hklen
      exact st.2.1 k hk0 hklen (by omega)
  | case2 h j hne hlt ih =>
      intro st
      rw [upHeap, if_neg hne, if_pos hlt]
      exact ih (UpStateMin_swap h j hne st hlt)
  | case3 h j hne hlt =>
      intro st
      rw [upHeap, if_neg hne, if_neg hlt]
      intro k hk0 hklen
      by_cases hkj : k = j
      · subst hkj
        cases hls : heapLess h k ((k - 1) / 2) with
        | false => rfl
        | true => exact absurd hls hlt
      · exact st.2.1 k hk0 hklen hkj

/-- Appending a fresh entry at the end yields the initial sift-up state. -/
theorem upState_initial (h : List File) (x : File) (hh : IsMinHeap h) :
    UpStateMin (h ++ [x]) h.length := by
  refine ⟨by simp, ?_, ?_⟩
  · intro child hc0 hclen hcne
    rw [List.length_append, List.length_singleton] at hclen
    have hcl : child < h.length := by omega
    have hpl : (child - 1) / 2 < h.length := by omega
    simp only [heapLess, entryAt_append_lt h x child hcl,
      entryAt_append_lt h x ((child - 1) / 2) hpl]
    exact hh child hc0 hcl
  · intro child hc0 hclen hcp hne0
    rw [List.length_append, List.length_singleton] at hclen
    omega

/-- `heap.Push` preserves the heap invariant. -/
theorem isMinHeap_heapPush (h : List File) (x : File) (hh : IsMinHeap h) :
    IsMinHeap (heapPush h x) :=
  upHeap_isMinHeap (h ++ [x]) h.length (upState_initial h x hh)

/-- One sift-down swap step preserves the sift-down state, moving the hole
to the selected child. -/
theorem DownStateMin_swap (h : List File) (hole n : Nat)
    (st : DownStateMin h hole n) (hj1 : 2 * hole + 1 < n)
    (hlt : heapLess h (minChildIdx h hole n) hole = true) :
    DownStateMin (swapAt h hole (minChildIdx h hole n)) (minChildIdx h hole n) n := by
  obtain ⟨hholen, hnlen, hheap, hlower⟩ := st
  obtain ⟨hb1, hb2, hb3, hb4⟩ := minChildIdx_bounds h hole n hj1
  have hmin := minChildIdx_min h hole n hj1
  have hj : minChildIdx h hole n < h.length := by omega
  have hoLen : hole < h.length := by omega
  have hParj : (minChildIdx h hole n - 1) / 2 = hole := by omega
  have hsw : ∀ k, entryAt (swapAt h hole (minChildIdx h hole n)) k =
      if k = minChildIdx h hole n then entryAt h hole
      else if k = hole then entryAt h (minChildIdx h hole n)
      else entryAt h k := fun k => entryAt_swapAt h hole (minChildIdx h hole n) k hoLen hj
  refine ⟨hb2, by rw [length_swapAt]; exact hnlen, ?_, ?_⟩
  · intro child hc0 hcn hcne
    simp only [heapLess, hsw child, hsw ((child - 1) / 2)]
    by_cases hcj : child = minChildIdx h hole n
    · subst hcj
      rw [if_pos rfl, hParj, if_neg (by omega : ¬ hole = minChildIdx h hole n), if_pos rfl]
      exact stringLt_asymm hlt
    · rw [if_neg hcj]
      by_cases hcho : child = hole
      · subst hcho
        rw [if_pos rfl,
          if_neg (by omega : ¬ (child - 1) / 2 = minChildIdx h child n),
          if_neg (by omega : ¬ (child - 1) / 2 = child)]
        exact hlower (minChildIdx h child n) (by omega) hb2 hParj (by omega)
      · rw [if_neg hcho]
        by_cases hp1 : (child - 1) / 2 = hole
        · rw [if_neg (by omega : ¬ (child - 1) / 2 = minChildIdx h hole n), if_pos hp1]
          exact hmin child hc0 hcn hp1
        · rw [if_neg hcne, if_neg hp1]
          exact hheap child hc0 hcn hp1
  · intro child hc0 hcn hcp _hjne
    simp only [heapLess, hsw child, hsw ((minChildIdx h hole n - 1) / 2)]
    rw [hParj, if_neg (by omega : ¬ hole = minChildIdx h hole n), if_pos rfl]
    by_cases hch : child = minChildIdx h hole n
    · exfalso
      omega
    · rw [if_neg hch]
      by_cases hcho : child = hole
      · exfalso
        omega
      · rw [if_neg hcho]
        have hx := hheap child hc0 hcn (by omega)
        rw [hcp] at hx
        exact hx

/-- Sift-down from a sift-down state restores the heap invariant below the
bound. -/
theorem downHeap_below : ∀ (h : List File) (hole n : Nat), DownStateMin h hole n →
    IsMinHeapBelow (downHeap h hole n) n := by
  intro h hole n
  induction h, hole, n using downHeap.induct with
  | case1 h hole n hj hlt ih =>
      intro st
      rw [downHeap, dif_pos hj, if_pos hlt]
      exact ih (DownStateMin_swap h hole n st hj hlt)
  | case2 h hole n hj hlt =>
      intro st
      rw [downHeap, dif_pos hj, if_neg hlt]
      obtain ⟨hholen, hnlen, hheap, hlower⟩ := st
      intro child hc0 hcn
      by_cases hcp : (child - 1) / 2 = hole
      · have h1 := minChildIdx_min h hole n hj child hc0 hcn hcp
        have h2 : heapLess h (minChildIdx h hole n) hole = false := by
          cases hx : heapLess h (minChildIdx h hole n) hole with
          | false => rfl
          | true => exact absurd hx hlt
        rw [hcp]
        exact stringLt_false_trans h1 h2
      · exact hheap child hc0 hcn hcp
  | case3 h hole n hj =>
      intro st
      rw [downHeap, dif_neg hj]
      obtain ⟨hholen, hnlen, hheap, hlower⟩ := st
      intro child hc0 hcn
      by_cases hcp : (child - 1) / 2 = hole
      · exfalso
        omega
      · exact hheap child hc0 hcn hcp

/-- `heap.Pop` on a nonempty min-heap returns the root and leaves a
min-heap whose members all come from the original heap. -/
theorem heapPop_spec (h : List File) (hne : 0 < h.length) (hh : IsMinHeap h) :
    (heapPop h).1 = entryAt h 0
    ∧ IsMinHeap (heapPop h).2
    ∧ ∀ a ∈ (heapPop h).2, a ∈ h := by
  by_cases hn : h.length - 1 = 0
  · have hd : downHeap (swapAt h 0 (h.length - 1)) 0 (h.length - 1)
        = swapAt h 0 (h.length - 1) := by
      rw [downHeap, dif_neg (by omega)]
    refine ⟨?_, ?_, ?_⟩
    · show entryAt (downHeap (swapAt h 0 (h.length - 1)) 0 (h.length - 1)) (h.length - 1)
        = entryAt h 0
      rw [hd, hn, entryAt_swapAt h 0 0 0 (by omega) (by omega), if_pos rfl]
    · show IsMinHeap ((downHeap (swapAt h 0 (h.length - 1)) 0 (h.length - 1)).take (h.length - 1))
      intro j hj0 hjlen
      rw [List.length_take] at hjlen
      omega
    · show ∀ a ∈ (downHeap (swapAt h 0 (h.length - 1)) 0 (h.length - 1)).take (h.length - 1), a ∈ h
      intro a ha
      rw [hn, List.take_zero] at ha
      exact absurd ha (List.not_mem_nil a)
  · have hnlen : h.length - 1 ≤ (swapAt h 0 (h.length - 1)).length := by
      rw [length_swapAt]
      omega
    have hst : DownStateMin (swapAt h 0 (h.length - 1)) 0 (h.length - 1) := by
      refine ⟨by omega, hnlen, ?_, ?_⟩
      · intro child hc0 hcn hcp
        have hcl : child < h.length := by omega
        simp only [heapLess,
          entryAt_swapAt h 0 (h.length - 1) child (by omega) (by omega),
          entryAt_swapAt h 0 (h.length - 1) ((child - 1) / 2) (by omega) (by omega)]
        rw [if_neg (by omega), if_neg (by omega), if_neg (by omega), if_neg (by omega)]
        exact hh child hc0 hcl
      · intro child hc0 hcn hcp habs
        exact absurd rfl habs
    have hbelow := downHeap_below (swapAt h 0 (h.length - 1)) 0 (h.length - 1) hst
    have huntouched := entryAt_downHeap_ge (swapAt h 0 (h.length - 1)) 0 (h.length - 1)
      (h.length - 1) hnlen (Nat.le_refl _)
    have hlen2 : (downHeap (swapAt h 0 (h.length - 1)) 0 (h.length - 1)).length
        = h.length := by
      rw [length_downHeap, length_swapAt]
    refine ⟨?_, ?_, ?_⟩
    · show entryAt (downHeap (swapAt h 0 (h.length - 1)) 0 (h.length - 1)) (h.length - 1)
        = entryAt h 0
      rw [huntouched,
        entryAt_swapAt h 0 (h.length - 1) (h.length - 1) (by omega) (by omega), if_pos rfl]
    · show IsMinHeap ((downHeap (swapAt h 0 (h.length - 1)) 0 (h.length - 1)).take (h.length - 1))
      intro j hj0 hjlen
      rw [List.length_take, hlen2] at hjlen
      have hjn : j < h.length - 1 := by omega
      simp only [heapLess, entryAt_take _ _ _ hjn,
        entryAt_take _ _ _ (by omega : (j - 1) / 2 < h.length - 1)]
      exact hbelow j hj0 hjn
    · show ∀ a ∈ (downHeap (swapAt h 0 (h.length - 1)) 0 (h.length - 1)).take (h.length - 1),
        a ∈ h
      intro a ha
      have h1 : a ∈ downHeap (swapAt h 0 (h.length - 1)) 0 (h.length - 1) :=
        List.take_subset _ _ ha
      have h2 : a ∈ swapAt h 0 (h.length - 1) := mem_downHeap _ _ _ hnlen h1
      exact mem_swapAt (by omega) (by omega) h2

/-- In-bounds entries agree with `List.get`. -/
theorem entryAt_eq_get (h : List File) (i : Nat) (hi : i < h.length) :
    entryAt h i = h.get ⟨i, hi⟩ := by
  unfold entryAt
  rw [List.getD_eq_getElem?_getD, List.getElem?_eq_getElem hi]
  rfl

/-- The root of a min-heap is not greater than any entry. -/
theorem isMinHeap_root_min (h : List File) (hh : IsMinHeap h) :
    ∀ i, i < h.length → stringLt (entryAt h i).Path (entryAt h 0).Path = false := by
  intro i
  induction i using Nat.strong_induction_on with
  | _ i ih =>
      intro hi
      by_cases h0 : i = 0
      · subst h0
        exact stringLt_irrefl _
      · have hedge := hh i (by omega) hi
        have hpar := ih ((i - 1) / 2) (by omega) (by omega)
        exact stringLt_false_trans hedge hpar

/-- The root of a min-heap is not greater than any member. -/
theorem isMinHeap_mem_min (h : List File) (hh : IsMinHeap h) :
    ∀ a ∈ h, stringLt a.Path (entryAt h 0).Path = false := by
  intro a ha
  obtain ⟨⟨i, hi⟩, rfl⟩ := List.mem_iff_get.mp ha
  rw [← entryAt_eq_get h i hi]
  exact isMinHeap_root_min h hh i hi

/-- The empty slice is a min-heap. -/
theorem isMinHeap_nil : IsMinHeap [] := by
  intro j hj0 hjlen
  simp at hjlen

/-- `PopOrNil` preserves the heap invariant. -/
theorem isMinHeap_popOrNil (h : List File) (hh : IsMinHeap h) :
    IsMinHeap (PopOrNil h).2 := by
  unfold PopOrNil
  by_cases hl : h.length > 0
  · rw [if_pos hl]
    exact (heapPop_spec h hl hh).2.1
  · rw [if_neg hl]
    exact hh

/-- Every state reachable from the empty heap by pushes and pops satisfies
the heap invariant. -/
theorem isMinHeap_applyHeapOps : ∀ (ops : List HeapOp) (h : List File), IsMinHeap h →
    IsMinHeap (applyHeapOps h ops) := by
  intro ops
  induction ops with
  | nil =>
      intro h hh
      exact hh
  | cons op ops ih =>
      intro h hh
      cases op with
      | push f => exact ih _ (isMinHeap_heapPush h f hh)
      | pop => exact ih _ (isMinHeap_popOrNil h hh)

/-- A successful `PopOrNil` means the heap was nonempty and the results come
from `heapPop`. -/
theorem PopOrNil_eq_some {h : List File} {f : File} (hf : (PopOrNil h).1 = some f) :
    0 < h.length ∧ f = (heapPop h).1 ∧ (PopOrNil h).2 = (heapPop h).2 := by
  unfold PopOrNil at hf ⊢
  by_cases hl : h.length > 0
  · rw [if_pos hl] at hf ⊢
    exact ⟨hl, (Option.some.inj hf).symm, rfl⟩
  · rw [if_neg hl] at hf
    exact absurd hf (by simp)

/-- Concrete evaluation: pushing onto the empty heap. -/
theorem evalPush_nil_b : heapPush [] wFileB = [wFileB] := by
  simp only [heapPush, List.length_nil, List.nil_append]
  rw [upHeap, if_pos rfl]

/-- Concrete evaluation: pushing onto the empty heap. -/
theorem evalPush_nil_a : heapPush [] wFileA = [wFileA] := by
  simp only [heapPush, List.length_nil, List.nil_append]
  rw [upHeap, if_pos rfl]

/-- Concrete evaluation: pushing the smaller file onto a singleton. -/
theorem evalPush_b_a : heapPush [wFileB] wFileA = [wFileA, wFileB] := by
  simp only [heapPush, List.length_cons, List.length_nil, List.cons_append,
    List.nil_append]
  rw [upHeap, if_neg (by omega), if_pos (by decide), upHeap, if_pos (by decide)]
  decide

/-- Concrete evaluation: popping a two-element heap. -/
theorem evalPop_ab : PopOrNil [wFileA, wFileB] = (some wFileA, [wFileB]) := by
  have hd : downHeap (swapAt [wFileA, wFileB] 0 1) 0 1 = swapAt [wFileA, wFileB] 0 1 := by
    rw [downHeap, dif_neg (by omega)]
  have hp : heapPop [wFileA, wFileB] = (wFileA, [wFileB]) := by
    show (entryAt (downHeap (swapAt [wFileA, wFileB] 0 1) 0 1) 1,
      (downHeap (swapAt [wFileA, wFileB] 0 1) 0 1).take 1) = (wFileA, [wFileB])
    rw [hd]
    decide
  show (if ([wFileA, wFileB] : List File).length > 0
      then (some (heapPop [wFileA, wFileB]).1, (heapPop [wFileA, wFileB]).2)
      else (none, [wFileA, wFileB])) = (some wFileA, [wFileB])
  rw [if_pos (by decide), hp]

/-- Concrete evaluation: popping a singleton heap. -/
theorem evalPop_b : PopOrNil [wFileB] = (some wFileB, []) := by
  have hd : downHeap (swapAt [wFileB] 0 0) 0 0 = swapAt [wFileB] 0 0 := by
    rw [downHeap, dif_neg (by omega)]
  have hp : heapPop [wFileB] = (wFileB, []) := by
    show (entryAt (downHeap (swapAt [wFileB] 0 0) 0 0) 0,
      (downHeap (swapAt [wFileB] 0 0) 0 0).take 0) = (wFileB, [])
    rw [hd]
    decide
  show (if ([wFileB] : List File).length > 0
      then (some (heapPop [wFileB]).1, (heapPop [wFileB]).2)
      else (none, [wFileB])) = (some wFileB, [])
  rw [if_pos (by decide), hp]

/-- Concrete evaluation: popping a singleton heap. -/
theorem evalPop_a : PopOrNil [wFileA] = (some wFileA, []) := by
  have hd : downHeap (swapAt [wFileA] 0 0) 0 0 = swapAt [wFileA] 0 0 := by
    rw [downHeap, dif_neg (by omega)]
  have hp : heapPop [wFileA] = (wFileA, []) := by
    show (entryAt (downHeap (swapAt [wFileA] 0 0) 0 0) 0,
      (downHeap (swapAt [wFileA] 0 0) 0 0).take 0) = (wFileA, [])
    rw [hd]
    decide
  show (if ([wFileA] : List File).length > 0
      then (some (heapPop [wFileA]).1, (heapPop [wFileA]).2)
      else (none, [wFileA])) = (some wFileA, [])
  rw [if_pos (by decide), hp]

/-- Concrete evaluation: the push sequence of the witness. -/
theorem evalOps_ba : applyHeapOps [] [HeapOp.push wFileB, HeapOp.push wFileA]
    = [wFileA, wFileB] := by
  show heapPush (heapPush [] wFileB) wFileA = [wFileA, wFileB]
  rw [evalPush_nil_b, evalPush_b_a]

/-- Concrete evaluation: the interleaved push/pop sequence of the
counterexample. -/
theorem evalOps_interleaved :
    applyHeapOps [] [HeapOp.push wFileB, HeapOp.pop, HeapOp.push wFileA] = [wFileA] := by
  show heapPush (PopOrNil (heapPush [] wFileB)).2 wFileA = [wFileA]
  rw [evalPush_nil_b, evalPop_b, evalPush_nil_a]

/-- C8. Amended: two values obtained by two *consecutive* `PopOrNil`
calls on a heap built from the empty heap by any sequence of pushes and
pops come out in non-decreasing path order, and `PopOrNil` on the empty
heap returns nil without modifying the heap. (The original claim, which
quantified over arbitrary interleavings of pushes between the pops, is
refuted by `DriveVerifier.popOrNil_interleaved_decreasing`.) -/
theorem popOrNil_consecutive_monotone (ops : List HeapOp) (f g : File) :
    ((PopOrNil (applyHeapOps [] ops)).1 = some f →
      (PopOrNil (PopOrNil (applyHeapOps [] ops)).2).1 = some g →
      stringLt g.Path f.Path = false)
    ∧ PopOrNil ([] : List File) = (none, []) := by
  constructor
  · intro h1 h2
    have hh : IsMinHeap (applyHeapOps [] ops) :=
      isMinHeap_applyHeapOps ops [] isMinHeap_nil
    obtain ⟨hl1, hf, hrest⟩ := PopOrNil_eq_some h1
    have hspec := heapPop_spec _ hl1 hh
    rw [hrest] at h2
    have hh2 : IsMinHeap (heapPop (applyHeapOps [] ops)).2 := hspec.2.1
    obtain ⟨hl2, hg, _⟩ := PopOrNil_eq_some h2
    have hspec2 := heapPop_spec _ hl2 hh2
    have hgmem : g ∈ (heapPop (applyHeapOps [] ops)).2 := by
      rw [hg, hspec2.1]
      exact entryAt_mem _ 0 hl2
    have hgmem2 : g ∈ applyHeapOps [] ops := hspec.2.2 g hgmem
    have hmin := isMinHeap_mem_min _ hh g hgmem2
    rw [hf, hspec.1]
    exact hmin
  · rfl

/-- Witness for C8: after pushing "b.txt" then "a.txt" onto the empty heap,
the two consecutive pops return "a.txt" then "b.txt", in order. -/
theorem popOrNil_consecutive_monotone_witness :
    ((PopOrNil (applyHeapOps [] [HeapOp.push wFileB, HeapOp.push wFileA])).1 = some wFileA
      ∧ (PopOrNil (PopOrNil (applyHeapOps []
          [HeapOp.push wFileB, HeapOp.push wFileA])).2).1 = some wFileB)
    ∧ stringLt wFileB.Path wFileA.Path = false := by
  have h1 : (PopOrNil (applyHeapOps [] [HeapOp.push wFileB, HeapOp.push wFileA])).1
      = some wFileA := by
    rw [evalOps_ba, evalPop_ab]
  have h2 : (PopOrNil (PopOrNil (applyHeapOps []
      [HeapOp.push wFileB, HeapOp.push wFileA])).2).1 = some wFileB := by
    rw [evalOps_ba, evalPop_ab]
    show (PopOrNil [wFileB]).1 = some wFileB
    rw [evalPop_b]
  exact ⟨⟨h1, h2⟩,
    (popOrNil_consecutive_monotone [HeapOp.push wFileB, HeapOp.push wFileA]
      wFileA wFileB).1 h1 h2⟩

/-- Counterexample to C8 as stated: over the sequence push "b.txt"; pop;
push "a.txt"; pop, the two pops return "b.txt" then "a.txt", which is
strictly decreasing, so pops interleaved with pushes are not monotone. -/
theorem popOrNil_interleaved_decreasing :
    (PopOrNil (applyHeapOps [] [HeapOp.push wFileB])).1 = some wFileB
    ∧ (PopOrNil (applyHeapOps []
        [HeapOp.push wFileB, HeapOp.pop, HeapOp.push wFileA])).1 = some wFileA
    ∧ stringLt wFileA.Path wFileB.Path = true := by
  refine ⟨?_, ?_, by decide⟩
  · show (PopOrNil (heapPush [] wFileB)).1 = some wFileB
    rw [evalPush_nil_b, evalPop_b]
  · rw [evalOps_interleaved, evalPop_a]

/-- `AddFolder` never touches the `Paths` or `SharedDirectories` maps. -/
theorem applyAddFolders_preserves : ∀ (ops : List (String × String × String))
    (d : DriveDirectoryCache),
    (applyAddFolders d ops).Paths = d.Paths
    ∧ (applyAddFolders d ops).SharedDirectories = d.SharedDirectories := by
  intro ops
  induction ops with
  | nil =>
      intro d
      exact ⟨rfl, rfl⟩
  | cons op ops ih =>
      intro d
      exact ih (AddFolder d op.1 op.2.1 op.2.2)

/-- A memoized path is returned directly, with no state change. -/
theorem pathLookup_hit (d : DriveDirectoryCache) (id path : String) (fuel : Nat)
    (h : d.Paths id = some path) :
    PathLookup d id (fuel + 1) = some (Except.ok path, d) := by
  rw [PathLookup, h]

/-- A shared-marked id with no memoized path errors directly, with no state
change. -/
theorem pathLookup_blocked (d : DriveDirectoryCache) (id : String) (fuel : Nat)
    (h1 : d.Paths id = none) (h2 : d.SharedDirectories id = true) :
    PathLookup d id (fuel + 1) = some (Except.error "Shared directory", d) := by
  rw [PathLookup, h1]
  simp only [h2, if_true]

/-- An erroring lookup always reports "Shared directory", never writes any
path, and leaves the looked-up id marked shared. -/
theorem pathLookup_error_spec : ∀ (fuel : Nat) (d : DriveDirectoryCache) (id e : String)
    (d2 : DriveDirectoryCache),
    PathLookup d id fuel = some (Except.error e, d2) →
    e = "Shared directory" ∧ d2.Paths = d.Paths ∧ d2.SharedDirectories id = true := by
  intro fuel
  induction fuel with
  | zero =>
      intro d id e d2 h
      rw [PathLookup] at h
      exact absurd h (by simp)
  | succ fuel ih =>
      intro d id e d2 h
      rw [PathLookup] at h
      split at h
      · simp at h
      · by_cases hs : d.SharedDirectories id
        · rw [if_pos hs] at h
          simp only [Option.some.injEq, Prod.mk.injEq, Except.error.injEq] at h
          obtain ⟨he, hd⟩ := h
          subst hd
          exact ⟨he.symm, rfl, hs⟩
        · rw [if_neg hs] at h
          split at h
          · simp only [Option.some.injEq, Prod.mk.injEq, Except.error.injEq] at h
            obtain ⟨he, hd⟩ := h
            subst hd
            refine ⟨he.symm, rfl, ?_⟩
            show (if id = id then true else d.SharedDirectories id) = true
            rw [if_pos rfl]
          · split at h
            · simp at h
            · next e3 d3 hrec =>
              simp only [Option.some.injEq, Prod.mk.injEq, Except.error.injEq] at h
              obtain ⟨he, hd⟩ := h
              subst hd
              obtain ⟨_, hpaths, _⟩ := ih d _ e3 d3 hrec
              refine ⟨he.symm, hpaths, ?_⟩
              show (if id = id then true else d3.SharedDirectories id) = true
              rw [if_pos rfl]
            · simp at h

/-- A succeeding lookup leaves the returned path memoized for its id. -/
theorem pathLookup_ok_memo (fuel : Nat) (d : DriveDirectoryCache) (id path : String)
    (d2 : DriveDirectoryCache)
    (h : PathLookup d id fuel = some (Except.ok path, d2)) :
    d2.Paths id = some path := by
  cases fuel with
  | zero =>
      rw [PathLookup] at h
      exact absurd h (by simp)
  | succ fuel =>
      rw [PathLookup] at h
      split at h
      · next path0 hp =>
        simp only [Option.some.injEq, Prod.mk.injEq, Except.ok.injEq] at h
        obtain ⟨hpath, hd⟩ := h
        subst hd
        rw [hp, hpath]
      · by_cases hs : d.SharedDirectories id
        · rw [if_pos hs] at h
          simp at h
        · rw [if_neg hs] at h
          split at h
          · simp at h
          · split at h
            · simp at h
            · simp at h
            · next parentPath d3 _hrec =>
              simp only [Option.some.injEq, Prod.mk.injEq, Except.ok.injEq] at h
              obtain ⟨hpath, hd⟩ := h
              subst hd
              show mapInsert d3.Paths id
                (parentPath ++ "/" ++ (d3.Names id).getD "") id = some path
              unfold mapInsert
              rw [if_pos rfl, hpath]

/-- C10. Unreachable-folder classification is sticky: once `PathLookup`
has returned the shared-directory error for an id, every later `PathLookup`
of that id returns the error with the cache unchanged, even after any
sequence of `AddFolder` calls (in particular one registering the missing
parent); symmetrically, once a lookup has resolved and memoized a path,
every later lookup returns the same cached path with the cache unchanged.
Both halves are the statement that the result `r` of a completed lookup is
reproduced verbatim by any later lookup of the same id. -/
theorem pathLookup_sticky (d d2 : DriveDirectoryCache) (id : String) (fuel : Nat)
    (ops : List (String × String × String)) (r : Except String String)
    (h : PathLookup d id fuel = some (r, d2)) (fuel2 : Nat) (h2 : 0 < fuel2) :
    PathLookup (applyAddFolders d2 ops) id fuel2
      = some (r, applyAddFolders d2 ops) := by
  obtain ⟨fuel3, rfl⟩ : ∃ k, fuel2 = k + 1 := ⟨fuel2 - 1, by omega⟩
  obtain ⟨hpaths, hshared⟩ := applyAddFolders_preserves ops d2
  cases r with
  | ok path =>
      have hmemo := pathLookup_ok_memo fuel d id path d2 h
      exact pathLookup_hit (applyAddFolders d2 ops) id path fuel3
        (by rw [hpaths]; exact hmemo)
  | error e =>
      obtain ⟨he, hpres, hset⟩ := pathLookup_error_spec fuel d id e d2 h
      have hnone : d2.Paths id = none := by
        rw [hpres]
        cases hp : d.Paths id with
        | none => rfl
        | some p =>
            exfalso
            cases fuel with
            | zero =>
                rw [PathLookup] at h
                exact absurd h (by simp)
            | succ fuel =>
                rw [PathLookup, hp] at h
                simp at h
      subst he
      exact pathLookup_blocked (applyAddFolders d2 ops) id fuel3
        (by rw [hpaths]; exact hnone) (by rw [hshared]; exact hset)

/-- Witness for C10: looking up folder "A", whose parent id "missing" is
unregistered, errors and marks both ids shared; after `AddFolder`
registers "missing" under the root, the lookup of "A" still returns the
shared-directory error with the cache unchanged. -/
theorem pathLookup_sticky_witness :
    (0 < 1
      ∧ PathLookup wDirCache "A" 2 = some (Except.error "Shared directory", wDirCache2))
    ∧ PathLookup (applyAddFolders wDirCache2 [("missing", "m", "root")]) "A" 1
      = some (Except.error "Shared directory",
          applyAddFolders wDirCache2 [("missing", "m", "root")]) :=
  ⟨⟨by decide, rfl⟩,
    pathLookup_sticky wDirCache wDirCache2 "A" 2 [("missing", "m", "root")]
      (Except.error "Shared directory") rfl 1 (by decide)⟩

/-- C9. Amended: for every local file processed by a hashing worker, the
emitted record's OriginalPath field is non-empty iff the path-filtering
step (conflict-marker stripping) changed the path, and when set it holds
the pre-filter path as already case-folded by `strings.ToLower` and
NFC-normalized — the original case is NOT retained, because the relative
path is computed from the lowercased entry path. (The original claim's
"with the original case retained" is refuted by
`DriveVerifier.handleLocalFile_originalPath_case_folded`.) -/
theorem handleLocalFile_originalPath_spec (nfc : String → String) (ch : Bool)
    (hash : String → String) (root entry rel0 : String) (f : File)
    (hrel : relativePath root (goToLower entry) = Except.ok rel0)
    (hf : handleLocalFileEntry nfc ch hash root entry = Except.ok f) :
    f.Path = filterLocalPath (nfc rel0)
    ∧ (f.OriginalPath ≠ "" ↔ filterLocalPath (nfc rel0) ≠ nfc rel0)
    ∧ (f.OriginalPath ≠ "" → f.OriginalPath = nfc rel0) := by
  unfold handleLocalFileEntry at hf
  split at hf
  · exact absurd hf (by simp)
  · next relPath0 heq =>
    rw [hrel] at heq
    obtain rfl : rel0 = relPath0 := Except.ok.inj heq
    simp only [Except.ok.injEq] at hf
    subst hf
    refine ⟨rfl, ?_, ?_⟩
    · show (if nfc rel0 ≠ filterLocalPath (nfc rel0) then nfc rel0 else "") ≠ ""
        ↔ filterLocalPath (nfc rel0) ≠ nfc rel0
      by_cases hc : nfc rel0 ≠ filterLocalPath (nfc rel0)
      · rw [if_pos hc]
        constructor
        · intro _ hx
          exact hc hx.symm
        · intro _ h0
          rw [h0] at hc
          exact hc (by rfl)
      · rw [if_neg hc]
        push_neg at hc
        constructor
        · intro hx
          exact absurd rfl hx
        · intro hx
          exact absurd hc.symm hx
    · show (if nfc rel0 ≠ filterLocalPath (nfc rel0) then nfc rel0 else "") ≠ ""
        → (if nfc rel0 ≠ filterLocalPath (nfc rel0) then nfc rel0 else "") = nfc rel0
      by_cases hc : nfc rel0 ≠ filterLocalPath (nfc rel0)
      · rw [if_pos hc]
        intro _
        rfl
      · rw [if_neg hc]
        intro hx
        exact absurd rfl hx

/-- Witness for C9: the entry "/r/A (slash conflict)" under root "/r"
produces Path "a " and OriginalPath "a (slash conflict)", and the amended
theorem applies to it. -/
theorem handleLocalFile_originalPath_spec_witness :
    (relativePath "/r" (goToLower "/r/A (slash conflict)") = Except.ok "a (slash conflict)"
      ∧ handleLocalFileEntry id false (fun _ => "") "/r" "/r/A (slash conflict)"
          = Except.ok ⟨"a ", "a (slash conflict)", ""⟩)
    ∧ ((⟨"a ", "a (slash conflict)", ""⟩ : File).Path
        = filterLocalPath (id "a (slash conflict)")
      ∧ ((⟨"a ", "a (slash conflict)", ""⟩ : File).OriginalPath ≠ ""
          ↔ filterLocalPath (id "a (slash conflict)") ≠ id "a (slash conflict)")
      ∧ ((⟨"a ", "a (slash conflict)", ""⟩ : File).OriginalPath ≠ ""
          → (⟨"a ", "a (slash conflict)", ""⟩ : File).OriginalPath
            = id "a (slash conflict)")) :=
  ⟨⟨rfl, rfl⟩,
    handleLocalFile_originalPath_spec id false (fun _ => "") "/r"
      "/r/A (slash conflict)" "a (slash conflict)" ⟨"a ", "a (slash conflict)", ""⟩
      rfl rfl⟩

/-- Counterexample to C9 as stated: for the entry "/r/A (slash conflict)"
under root "/r" (with the identity NFC normalizer and no hashing), the
emitted OriginalPath is the lowercased "a (slash conflict)", not the
pre-filter path with the original case "A (slash conflict)". -/
theorem handleLocalFile_originalPath_case_folded :
    handleLocalFileEntry id false (fun _ => "") "/r" "/r/A (slash conflict)"
      = Except.ok ⟨"a ", "a (slash conflict)", ""⟩
    ∧ "a (slash conflict)" ≠ "A (slash conflict)" :=
  ⟨rfl, by decide⟩

/-- Joining a non-empty list of non-empty segments is non-empty. -/
theorem joinSegs_ne_empty : ∀ (l : List String), l ≠ [] → (∀ x ∈ l, x ≠ "") →
    joinSegs l ≠ "" := by
  intro l hne hall
  cases l with
  | nil => exact absurd rfl hne
  | cons a t =>
      cases t with
      | nil => exact hall a (by simp)
      | cons b rest =>
          show a ++ "/" ++ joinSegs (b :: rest) ≠ ""
          intro h
          have h2 := congrArg String.length h
          rw [String.length_append, String.length_append] at h2
          have h3 : ("/" : String).length = 1 := rfl
          have h4 : ("" : String).length = 0 := rfl
          omega

/-- `cleanPush` never pushes an empty segment. -/
theorem cleanPush_ne_empty (rooted : Bool) (acc : List String) (seg : String)
    (h : ∀ x ∈ acc, x ≠ "") : ∀ x ∈ cleanPush rooted acc seg, x ≠ "" := by
  intro x hx
  by_cases h1 : seg = "" ∨ seg = "."
  · rw [cleanPush.eq_def, if_pos h1] at hx
    exact h x hx
  · by_cases h2 : seg = ".."
    · rw [cleanPush.eq_def, if_neg h1, if_pos h2] at hx
      cases acc with
      | nil =>
          have hx2 : x ∈ (if rooted then [] else ([".."] : List String)) := hx
          cases rooted with
          | true => simp at hx2
          | false =>
              simp at hx2
              subst hx2
              decide
      | cons a rest =>
          have hx2 : x ∈ (if a = ".." then ".." :: a :: rest else rest) := hx
          by_cases h3 : a = ".."
          · rw [if_pos h3] at hx2
            rcases List.mem_cons.mp hx2 with h4 | h5
            · subst h4
              decide
            · exact h x h5
          · rw [if_neg h3] at hx2
            exact h x (List.mem_cons_of_mem a hx2)
    · rw [cleanPush.eq_def, if_neg h1, if_neg h2] at hx
      rcases List.mem_cons.mp hx with h4 | h5
      · subst h4
        intro hy
        exact h1 (Or.inl hy)
      · exact h x h5

/-- The clean fold preserves segment non-emptiness. -/
theorem goCleanSegs_foldl_ne_empty (rooted : Bool) : ∀ (segs acc : List String),
    (∀ x ∈ acc, x ≠ "") → ∀ x ∈ segs.foldl (cleanPush rooted) acc, x ≠ "" := by
  intro segs
  induction segs with
  | nil =>
      intro acc h x hx
      exact h x hx
  | cons seg rest ih =>
      intro acc h x hx
      exact ih (cleanPush rooted acc seg) (cleanPush_ne_empty rooted acc seg h) x hx

/-- Every segment of a cleaned path is non-empty. -/
theorem goCleanSegs_ne_empty (segs : List String) (rooted : Bool) :
    ∀ x ∈ goCleanSegs segs rooted, x ≠ "" := by
  intro x hx
  unfold goCleanSegs at hx
  rw [List.mem_reverse] at hx
  exact goCleanSegs_foldl_ne_empty rooted segs [] (by simp) x hx

/-- Go `path.Clean` never returns the empty string. -/
theorem goClean_ne_empty (s : String) : goClean s ≠ "" := by
  unfold goClean
  by_cases hr : s.data.head? = some '/'
  · rw [if_pos hr]
    intro h
    have h2 := congrArg String.length h
    rw [String.length_append] at h2
    have h3 : ("/" : String).length = 1 := rfl
    have h4 : ("" : String).length = 0 := rfl
    omega
  · rw [if_neg hr]
    by_cases h2 : goCleanSegs (splitSegs s.data []) false = []
    · rw [if_pos h2]
      decide
    · rw [if_neg h2]
      exact joinSegs_ne_empty _ h2 (goCleanSegs_ne_empty _ _)

/-- Go `path.Join` with a non-empty first element is non-empty. -/
theorem goJoin_ne_empty (a b : String) (ha : a ≠ "") : goJoin a b ≠ "" := by
  unfold goJoin
  rw [if_neg ha]
  by_cases hb : b = ""
  · rw [if_pos hb]
    exact goClean_ne_empty a
  · rw [if_neg hb]
    exact goClean_ne_empty _

/-- Unfolding `purePath` on a cache miss. -/
theorem purePath_none {m : FolderMap} {id : String} (fuel : Nat) (hm : m id = none) :
    purePath m id (fuel + 1) = some (Except.error id) := by
  rw [purePath, hm]

/-- Unfolding `purePath` on a cache hit. -/
theorem purePath_some {m : FolderMap} {id : String} {folder : GFolder} (fuel : Nat)
    (hm : m id = some folder) :
    purePath m id (fuel + 1)
      = if folder.path = "" then chainStep folder.Name (purePath m folder.ParentId fuel)
        else some (Except.ok folder.path) := by
  rw [purePath, hm]

/-- A completed `purePath` outcome persists with one more unit of fuel. -/
theorem purePath_mono : ∀ (fuel : Nat) (m : FolderMap) (id : String)
    (r : Except String String),
    purePath m id fuel = some r → purePath m id (fuel + 1) = some r := by
  intro fuel
  induction fuel with
  | zero =>
      intro m id r h
      rw [purePath] at h
      exact absurd h (by simp)
  | succ fuel ih =>
      intro m id r h
      cases hm : m id with
      | none =>
          rw [purePath_none fuel hm] at h
          rw [purePath_none (fuel + 1) hm]
          exact h
      | some folder =>
          rw [purePath_some fuel hm] at h
          rw [purePath_some (fuel + 1) hm]
          by_cases hp : folder.path = ""
          · rw [if_pos hp] at h ⊢
            cases hrec : purePath m folder.ParentId fuel with
            | none =>
                rw [hrec] at h
                exact absurd h (by simp [chainStep])
            | some rp =>
                rw [hrec] at h
                rw [ih m folder.ParentId rp hrec]
                exact h
          · rw [if_neg hp] at h ⊢
            exact h

/-- A completed `purePath` outcome persists with any larger fuel. -/
theorem purePath_le {m : FolderMap} {id : String} {r : Except String String}
    {f1 : Nat} (f2 : Nat) (hle : f1 ≤ f2) (h : purePath m id f1 = some r) :
    purePath m id f2 = some r := by
  induction f2 with
  | zero =>
      have : f1 = 0 := by omega
      subst this
      exact h
  | succ f2 ih =>
      by_cases he : f1 = f2 + 1
      · subst he
        exact h
      · exact purePath_mono f2 m id r (ih (by omega))

/-- `purePath` outcomes are fuel-independent. -/
theorem purePath_det {m : FolderMap} {id : String} {f1 f2 : Nat}
    {r1 r2 : Except String String}
    (h1 : purePath m id f1 = some r1) (h2 : purePath m id f2 = some r2) : r1 = r2 := by
  by_cases hle : f1 ≤ f2
  · have h3 := purePath_le f2 hle h1
    rw [h3] at h2
    exact Option.some.inj h2
  · have h3 := purePath_le f1 (by omega) h2
    rw [h3] at h1
    exact (Option.some.inj h1).symm

/-- A resolved chain path is never the empty string. -/
theorem purePath_ok_ne_empty : ∀ (fuel : Nat) (m : FolderMap) (id p : String),
    purePath m id fuel = some (Except.ok p) → p ≠ "" := by
  intro fuel
  induction fuel with
  | zero =>
      intro m id p h
      rw [purePath] at h
      exact absurd h (by simp)
  | succ fuel ih =>
      intro m id p h
      cases hm : m id with
      | none =>
          rw [purePath_none fuel hm] at h
          simp at h
      | some folder =>
          rw [purePath_some fuel hm] at h
          by_cases hp : folder.path = ""
          · rw [if_pos hp] at h
            cases hrec : purePath m folder.ParentId fuel with
            | none =>
                rw [hrec] at h
                exact absurd h (by simp [chainStep])
            | some rp =>
                rw [hrec] at h
                cases rp with
                | error e =>
                    exact absurd h (by simp [chainStep])
                | ok pp =>
                    have hpp := ih m folder.ParentId pp hrec
                    have h2 : some (Except.ok (goJoin pp (filterFileName folder.Name)))
                        = some (Except.ok p) := h
                    have h3 := Except.ok.inj (Option.some.inj h2)
                    rw [← h3]
                    exact goJoin_ne_empty pp _ hpp
          · rw [if_neg hp] at h
            have h2 : some (Except.ok folder.path) = some (Except.ok p) := h
            have h3 := Except.ok.inj (Option.some.inj h2)
            rw [← h3]
            exact hp

/-- Unfolding `buildPath` on a cache miss. -/
theorem buildPath_none {m : FolderMap} {id : String} (fuel : Nat) (hm : m id = none) :
    buildPath m id (fuel + 1) = some (Except.error id) := by
  rw [buildPath, hm]

/-- Unfolding `buildPath` on a cache hit. -/
theorem buildPath_some {m : FolderMap} {id : String} {folder : GFolder} (fuel : Nat)
    (hm : m id = some folder) :
    buildPath m id (fuel + 1)
      = if folder.path = "" then buildStep id folder (buildPath m folder.ParentId fuel)
        else some (Except.ok (folder.path, m)) := by
  rw [buildPath, hm]

/-- `buildPath` agrees with the stateless chain resolution outcome for
outcome, and its cache writes only fill empty memo fields with the path the
entry's own chain resolves to. -/
theorem buildPath_spec : ∀ (fuel : Nat) (m : FolderMap) (id : String),
    (buildPath m id fuel = none ∧ purePath m id fuel = none)
    ∨ (∃ e, buildPath m id fuel = some (Except.error e)
        ∧ purePath m id fuel = some (Except.error e))
    ∨ (∃ p m2, buildPath m id fuel = some (Except.ok (p, m2))
        ∧ purePath m id fuel = some (Except.ok p) ∧ FolderWrites m m2) := by
  intro fuel
  induction fuel with
  | zero =>
      intro m id
      exact Or.inl ⟨rfl, rfl⟩
  | succ fuel ih =>
      intro m id
      cases hm : m id with
      | none =>
          exact Or.inr (Or.inl ⟨id, buildPath_none fuel hm, purePath_none fuel hm⟩)
      | some folder =>
          by_cases hp : folder.path = ""
          · rcases ih m folder.ParentId with ⟨hb, hpu⟩ | ⟨e, hb, hpu⟩ | ⟨pp, m2, hb, hpu, hw⟩
            · refine Or.inl ⟨?_, ?_⟩
              · rw [buildPath_some fuel hm, if_pos hp, hb]
                rfl
              · rw [purePath_some fuel hm, if_pos hp, hpu]
                rfl
            · refine Or.inr (Or.inl ⟨e, ?_, ?_⟩)
              · rw [buildPath_some fuel hm, if_pos hp, hb]
                rfl
              · rw [purePath_some fuel hm, if_pos hp, hpu]
                rfl
            · refine Or.inr (Or.inr ⟨goJoin pp (filterFileName folder.Name),
                folderInsert m2 id
                  ⟨folder.ParentId, folder.Name, goJoin pp (filterFileName folder.Name)⟩,
                ?_, ?_, ?_⟩)
              · rw [buildPath_some fuel hm, if_pos hp, hb]
                rfl
              · rw [purePath_some fuel hm, if_pos hp, hpu]
                rfl
              · intro x
                by_cases hx : x = id
                · rw [hx]
                  refine Or.inr ⟨folder, goJoin pp (filterFileName folder.Name),
                    hm, hp, ?_, ?_, ?_⟩
                  · unfold folderInsert
                    rw [if_pos rfl]
                  · exact goJoin_ne_empty pp _
                      (purePath_ok_ne_empty fuel m folder.ParentId pp hpu)
                  · intro fuel2 r hr
                    have hpure : purePath m id (fuel + 1)
                        = some (Except.ok (goJoin pp (filterFileName folder.Name))) := by
                      rw [purePath_some fuel hm, if_pos hp, hpu]
                      rfl
                    exact purePath_det hr hpure
                · rcases hw x with h1 | ⟨g, p, hg1, hg2, hg3, hg4, hg5⟩
                  · refine Or.inl ?_
                    show folderInsert m2 id _ x = m x
                    unfold folderInsert
                    rw [if_neg hx]
                    exact h1
                  · refine Or.inr ⟨g, p, hg1, hg2, ?_, hg4, hg5⟩
                    show folderInsert m2 id _ x = some _
                    unfold folderInsert
                    rw [if_neg hx]
                    exact hg3
          · refine Or.inr (Or.inr ⟨folder.path, m, ?_, ?_, fun x => Or.inl rfl⟩)
            · rw [buildPath_some fuel hm, if_neg hp]
            · rw [purePath_some fuel hm, if_neg hp]

/-- Memo writes of the `buildPath` kind do not change any stateless chain
resolution outcome. -/
theorem folderWrites_preserve (m m2 : FolderMap) (hw : FolderWrites m m2) :
    ∀ (fuel : Nat) (x : String) (r : Except String String),
    purePath m x fuel = some r → purePath m2 x fuel = some r := by
  intro fuel
  induction fuel with
  | zero =>
      intro x r h
      rw [purePath] at h
      exact absurd h (by simp)
  | succ fuel ih =>
      intro x r h
      rcases hw x with h1 | ⟨g, p, hg1, hg2, hg3, hg4, hg5⟩
      · cases hm : m x with
        | none =>
            rw [purePath_none fuel hm] at h
            rw [purePath_none fuel (by rw [h1, hm])]
            exact h
        | some folder =>
            rw [purePath_some fuel hm] at h
            rw [purePath_some fuel (show m2 x = some folder by rw [h1, hm])]
            by_cases hp : folder.path = ""
            · rw [if_pos hp] at h ⊢
              cases hrec : purePath m folder.ParentId fuel with
              | none =>
                  rw [hrec] at h
                  exact absurd h (by simp [chainStep])
              | some rp =>
                  rw [hrec] at h
                  rw [ih folder.ParentId rp hrec]
                  exact h
            · rw [if_neg hp] at h ⊢
              exact h
      · have hr := hg5 (fuel + 1) r h
        subst hr
        rw [purePath_some fuel hg3, if_neg hg4]

/-- A per-file precondition and per-file outcome survive memo-preserving
cache changes. -/
theorem goodFile_transfer (nfc : String → String) (rootId rootPath : String)
    (m m2 : FolderMap) (fuel : Nat) (file : DriveFile)
    (hpres : ∀ (fuel2 : Nat) (x : String) (r : Except String String),
      purePath m x fuel2 = some r → purePath m2 x fuel2 = some r)
    (hg : GoodFile rootId rootPath m fuel file) :
    GoodFile rootId rootPath m2 fuel file
    ∧ includeFile nfc rootId rootPath m2 fuel file
      = includeFile nfc rootId rootPath m fuel file := by
  rcases hg with ⟨e, he⟩ | ⟨p, r, hp, hr⟩
  · have he2 := hpres fuel _ _ he
    refine ⟨Or.inl ⟨e, he2⟩, ?_⟩
    unfold includeFile
    rw [he, he2]
  · have hp2 := hpres fuel _ _ hp
    refine ⟨Or.inr ⟨p, r, hp2, hr⟩, ?_⟩
    unfold includeFile
    rw [hp, hp2]

/-- Unfolding one manifest-loop iteration. -/
theorem filesLoop_cons (nfc : String → String) (rootId rootPath : String) (fuel : Nat)
    (file : DriveFile) (rest : List DriveFile) (m : FolderMap) :
    filesLoop nfc rootId rootPath fuel (file :: rest) m
      = match buildPath m (fileParentId rootId file) fuel with
        | none => none
        | some (Except.error _) => filesLoop nfc rootId rootPath fuel rest m
        | some (Except.ok (parentPath, m2)) =>
          match goRel rootPath (goJoin parentPath (filterFileName file.Name)) with
          | Except.error _ => some (Except.error ())
          | Except.ok relPath =>
            if relPath.data.take 3 = ['.', '.', '/'] then
              filesLoop nfc rootId rootPath fuel rest m2
            else loopStep nfc relPath file.Md5Checksum
              (filesLoop nfc rootId rootPath fuel rest m2) := rfl

/-- The manifest loop under per-file preconditions: no error is returned,
the output is the `filterMap` of the stateless per-file outcome over the
initial cache, and the final cache preserves all chain resolutions. -/
theorem filesLoop_spec (nfc : String → String) (rootId rootPath : String) (fuel : Nat) :
    ∀ (files : List DriveFile) (m : FolderMap),
    (∀ file ∈ files, GoodFile rootId rootPath m fuel file) →
    ∃ m2, filesLoop nfc rootId rootPath fuel files m
        = some (Except.ok (files.filterMap (includeFile nfc rootId rootPath m fuel), m2))
      ∧ ∀ (fuel2 : Nat) (x : String) (r : Except String String),
          purePath m x fuel2 = some r → purePath m2 x fuel2 = some r := by
  intro files
  induction files with
  | nil =>
      intro m hgood
      exact ⟨m, rfl, fun _ _ _ h => h⟩
  | cons file rest ih =>
      intro m hgood
      have hgf := hgood file (by simp)
      rcases buildPath_spec fuel m (fileParentId rootId file)
        with ⟨hb, hpu⟩ | ⟨e, hb, hpu⟩ | ⟨p, mw, hb, hpu, hw⟩
      · exfalso
        rcases hgf with ⟨e, he⟩ | ⟨p, r, hp, _⟩
        · rw [hpu] at he
          exact absurd he (by simp)
        · rw [hpu] at hp
          exact absurd hp (by simp)
      · obtain ⟨m2, hloop, hpres⟩ := ih m (fun f hf => hgood f (List.mem_cons_of_mem _ hf))
        refine ⟨m2, ?_, hpres⟩
        rw [filesLoop_cons, hb]
        show filesLoop nfc rootId rootPath fuel rest m
          = some (Except.ok ((file :: rest).filterMap (includeFile nfc rootId rootPath m fuel), m2))
        have hinc : includeFile nfc rootId rootPath m fuel file = none := by
          unfold includeFile
          rw [hpu]
        rw [hloop, List.filterMap_cons_none hinc]
      · rcases hgf with ⟨e, he⟩ | ⟨pp, rel, hpp, hrel⟩
        · exfalso
          rw [hpu] at he
          exact absurd he (by simp)
        · rw [hpu] at hpp
          have hppe : p = pp := Except.ok.inj (Option.some.inj hpp)
          subst hppe
          have hpres1 : ∀ (fuel2 : Nat) (x : String) (r : Except String String),
              purePath m x fuel2 = some r → purePath mw x fuel2 = some r :=
            fun fuel2 x r h => folderWrites_preserve m mw hw fuel2 x r h
          have hgood2 : ∀ f ∈ rest, GoodFile rootId rootPath mw fuel f :=
            fun f hf => (goodFile_transfer nfc rootId rootPath m mw fuel f hpres1
              (hgood f (List.mem_cons_of_mem _ hf))).1
          have hincs : ∀ f ∈ rest, includeFile nfc rootId rootPath mw fuel f
              = includeFile nfc rootId rootPath m fuel f :=
            fun f hf => (goodFile_transfer nfc rootId rootPath m mw fuel f hpres1
              (hgood f (List.mem_cons_of_mem _ hf))).2
          have hfm : rest.filterMap (includeFile nfc rootId rootPath mw fuel)
              = rest.filterMap (includeFile nfc rootId rootPath m fuel) :=
            List.filterMap_congr hincs
          obtain ⟨m2, hloop, hpres2⟩ := ih mw hgood2
          refine ⟨m2, ?_, fun fuel2 x r h => hpres2 fuel2 x r (hpres1 fuel2 x r h)⟩
          rw [filesLoop_cons, hb]
          show (match goRel rootPath (goJoin p (filterFileName file.Name)) with
            | Except.error _ => some (Except.error ())
            | Except.ok relPath =>
              if relPath.data.take 3 = ['.', '.', '/'] then
                filesLoop nfc rootId rootPath fuel rest mw
              else loopStep nfc relPath file.Md5Checksum
                (filesLoop nfc rootId rootPath fuel rest mw))
            = some (Except.ok ((file :: rest).filterMap
                (includeFile nfc rootId rootPath m fuel), m2))
          rw [hrel]
          by_cases htake : rel.data.take 3 = ['.', '.', '/']
          · show (if rel.data.take 3 = ['.', '.', '/'] then
                filesLoop nfc rootId rootPath fuel rest mw
              else loopStep nfc rel file.Md5Checksum
                (filesLoop nfc rootId rootPath fuel rest mw))
              = some (Except.ok ((file :: rest).filterMap
                  (includeFile nfc rootId rootPath m fuel), m2))
            have hinc : includeFile nfc rootId rootPath m fuel file = none := by
              unfold includeFile
              rw [hpu]
              show (match goRel rootPath (goJoin p (filterFileName file.Name)) with
                | Except.ok relPath =>
                  if relPath.data.take 3 = ['.', '.', '/'] then none
                  else some (⟨goToLower (nfc relPath), "", file.Md5Checksum⟩ : File)
                | Except.error _ => none) = none
              rw [hrel]
              show (if rel.data.take 3 = ['.', '.', '/'] then none
                else some (⟨goToLower (nfc rel), "", file.Md5Checksum⟩ : File)) = none
              rw [if_pos htake]
            rw [if_pos htake, hloop, hfm, List.filterMap_cons_none hinc]
          · show (if rel.data.take 3 = ['.', '.', '/'] then
                filesLoop nfc rootId rootPath fuel rest mw
              else loopStep nfc rel file.Md5Checksum
                (filesLoop nfc rootId rootPath fuel rest mw))
              = some (Except.ok ((file :: rest).filterMap
                  (includeFile nfc rootId rootPath m fuel), m2))
            have hinc : includeFile nfc rootId rootPath m fuel file
                = some ⟨goToLower (nfc rel), "", file.Md5Checksum⟩ := by
              unfold includeFile
              rw [hpu]
              show (match goRel rootPath (goJoin p (filterFileName file.Name)) with
                | Except.ok relPath =>
                  if relPath.data.take 3 = ['.', '.', '/'] then none
                  else some (⟨goToLower (nfc relPath), "", file.Md5Checksum⟩ : File)
                | Except.error _ => none)
                = some (⟨goToLower (nfc rel), "", file.Md5Checksum⟩ : File)
              rw [hrel]
              show (if rel.data.take 3 = ['.', '.', '/'] then none
                else some (⟨goToLower (nfc rel), "", file.Md5Checksum⟩ : File))
                = some (⟨goToLower (nfc rel), "", file.Md5Checksum⟩ : File)
              rw [if_neg htake]
            rw [if_neg htake, hloop]
            show some (Except.ok ((⟨goToLower (nfc rel), "", file.Md5Checksum⟩ : File)
                :: rest.filterMap (includeFile nfc rootId rootPath mw fuel), m2))
              = some (Except.ok ((file :: rest).filterMap
                  (includeFile nfc rootId rootPath m fuel), m2))
            rw [hfm, List.filterMap_cons_some hinc]

/-- C5. For every remote file whose parent-folder id (or any ancestor on
its parent chain) is absent from the folder cache — i.e. whose stateless
chain resolution reports a missing folder id — the manifest loop of
`Files` excludes the file from the returned manifest without returning an
error: under the per-file precondition `GoodFile` (each file's chain
either hits a missing folder or resolves and relativizes), the loop
returns `Except.ok` with exactly the `filterMap` of the per-file outcome
`includeFile`, which maps chain-missing files to `none` and resolving
files to a record whose path is joined from the root down
(`goJoin parentPath (filterFileName name)`, relativized against the
root path and normalized). -/
theorem files_missing_ancestor_excluded (nfc : String → String)
    (rootId rootPath : String) (fuel : Nat) (files : List DriveFile) (m : FolderMap)
    (hgood : ∀ file ∈ files, GoodFile rootId rootPath m fuel file) :
    (∀ (file : DriveFile) (e : String),
      purePath m (fileParentId rootId file) fuel = some (Except.error e) →
      includeFile nfc rootId rootPath m fuel file = none)
    ∧ ∃ m2, filesLoop nfc rootId rootPath fuel files m
        = some (Except.ok (files.filterMap (includeFile nfc rootId rootPath m fuel), m2)) := by
  constructor
  · intro file e he
    unfold includeFile
    rw [he]
  · obtain ⟨m2, hloop, _⟩ := filesLoop_spec nfc rootId rootPath fuel files m hgood
    exact ⟨m2, hloop⟩

/-- Witness for C5: with a cache containing the root "r", a folder "f1"
under it, and a folder "f2" whose parent "ghost" is missing, the file
under "f2" is silently excluded and the file under "f1" is included as
"docs/a.txt". -/
theorem files_missing_ancestor_excluded_witness :
    (∀ file ∈ [wDriveFileA, wDriveFileB], GoodFile "r" "/" wFolderMap 5 file)
    ∧ ((∀ (file : DriveFile) (e : String),
        purePath wFolderMap (fileParentId "r" file) 5 = some (Except.error e) →
        includeFile id "r" "/" wFolderMap 5 file = none)
      ∧ ∃ m2, filesLoop id "r" "/" 5 [wDriveFileA, wDriveFileB] wFolderMap
          = some (Except.ok ([wDriveFileA, wDriveFileB].filterMap
              (includeFile id "r" "/" wFolderMap 5), m2))) := by
  have hgood : ∀ file ∈ [wDriveFileA, wDriveFileB], GoodFile "r" "/" wFolderMap 5 file := by
    intro file hf
    rcases List.mem_cons.mp hf with h | h
    · subst h
      exact Or.inr ⟨"/docs", "docs/a.txt", by rfl, by rfl⟩
    · rcases List.mem_cons.mp h with h2 | h2
      · subst h2
        exact Or.inl ⟨"ghost", by rfl⟩
      · exact absurd h2 (List.not_mem_nil _)
  exact ⟨hgood, files_missing_ancestor_excluded id "r" "/" 5
    [wDriveFileA, wDriveFileB] wFolderMap hgood⟩

end DriveVerifier
